import Mathlib

/-!
Verification of the directory-inventory tool (`scr/project6/exe1.py`).

The program builds a nested-mapping tree of a directory (descending into ZIP
archives, including ZIPs nested inside ZIPs), renders the tree as sorted,
indented text lines, and saves the tree as JSON (`json.dumps` with two-space
indent, non-ASCII unescaped), as a DOCX paragraph list, or — for a `.pdf`
target — not at all (`PDFSaver.save` is `pass`).

The shallow embedding below mirrors the Python source:
* Python dicts (insertion-ordered, unique keys) are association lists
  `List (String × Value)`; assignment `d[k] = v` is `dictSet` (replace in
  place if the key exists, else append).
* Python values stored in the tree are strings, non-negative ints and nested
  dicts: the `Value` inductive.
* Fallible operations (KeyError on a missing intermediate node, reading a
  missing archive member, running out of recursion fuel) return `Option`;
  reported `ValueError`s and uncaught defects are the `PyOutcome` type.
* Filesystem and archive contents are input data: `FSEntry` models one
  `Path.rglob('*')` result, `ZEntry` models one `ZipInfo` of an open archive
  together with the entry list its bytes hold when opened as a ZIP.
-/

/-- Values stored in the tree mapping: Python `str`, non-negative `int`,
or a nested `dict` (association list in insertion order). -/
inductive Value where
  | vStr (s : String)
  | vNat (n : Nat)
  | vNode (d : List (String × Value))

/-- A tree mapping: the representation of one Python dict. -/
abbrev Dict := List (String × Value)

/-- Python `d.get(k)` / `d[k]` lookup: the value at the first (unique) key. -/
def dictGet (d : Dict) (k : String) : Option Value :=
  match d with
  | [] => none
  | (k', v) :: rest => if k' = k then some v else dictGet rest k

/-- Python `d.get(k, default)`. -/
def dictGetD (d : Dict) (k : String) (dflt : Value) : Value :=
  (dictGet d k).getD dflt

/-- Python assignment `d[k] = v` on an insertion-ordered dict: replace the
value in place when the key exists, otherwise append the pair. -/
def dictSet (d : Dict) (k : String) (v : Value) : Dict :=
  match d with
  | [] => [(k, v)]
  | (k', v') :: rest =>
      if k' = k then (k', v) :: rest else (k', v') :: dictSet rest k v

/-- Fuel-driven digit extraction (structural, so the kernel can evaluate
it); `natDigits` supplies sufficient fuel. -/
def natDigitsAux : Nat → Nat → List Char
  | _, 0 => []
  | 0, _ + 1 => []
  | f + 1, n + 1 =>
      natDigitsAux f ((n + 1) / 10) ++ [Nat.digitChar ((n + 1) % 10)]

/-- Decimal digits of `n` (most significant first); empty for `0`. -/
def natDigits (n : Nat) : List Char := natDigitsAux n n

/-- Model of Python `str(n)` for a non-negative int. -/
def natRepr (n : Nat) : String :=
  if n = 0 then "0" else ⟨natDigits n⟩

mutual
/-- Model of Python `repr` on tree values (`str` on a dict uses `repr`).
String escaping inside `repr` is elided: the repository's trees never render
dict- or quote-valued fields, so only the shape matters here. -/
def pyRepr : Value → String
  | .vStr s => "'" ++ s ++ "'"
  | .vNat n => natRepr n
  | .vNode d => "\x7b" ++ pyReprMembers d ++ "\x7d"

/-- Comma-joined `repr` of dict members. -/
def pyReprMembers : List (String × Value) → String
  | [] => ""
  | [(k, v)] => "'" ++ k ++ "': " ++ pyRepr v
  | (k, v) :: rest => "'" ++ k ++ "': " ++ pyRepr v ++ ", " ++ pyReprMembers rest
end

/-- Model of Python `str()` as used by f-string interpolation. -/
def pyStr : Value → String
  | .vStr s => s
  | .vNat n => natRepr n
  | .vNode d => pyRepr (.vNode d)

/-- Index of the last occurrence of `c` in the list, if any. -/
def rfindIdx (cs : List Char) (c : Char) : Option Nat :=
  match cs with
  | [] => none
  | x :: xs =>
      match rfindIdx xs c with
      | some i => some (i + 1)
      | none => if x = c then some 0 else none

/-- Model of Python `PurePath.suffix` applied to a final path component:
the substring from the last dot, provided that dot is neither the first nor
the last character; otherwise the empty string. -/
def pySuffix (name : String) : String :=
  let cs := name.data
  match rfindIdx cs '.' with
  | some i => if 0 < i ∧ i < cs.length - 1 then ⟨cs.drop i⟩ else ""
  | none => ""

/-- ASCII lower-casing of one character (Python `str.lower` restricted to
ASCII, which covers every extension the program compares). -/
def asciiLowerChar (c : Char) : Char :=
  if 'A' ≤ c ∧ c ≤ 'Z' then Char.ofNat (c.toNat + 32) else c

/-- Model of Python `str.lower()` (ASCII range). -/
def pyLower (s : String) : String := ⟨s.data.map asciiLowerChar⟩

/-- Split a character list at every occurrence of `c` (Python
`str.split(c)` semantics: `n` separators produce `n + 1` groups). -/
def splitChar (c : Char) : List Char → List (List Char)
  | [] => [[]]
  | x :: xs =>
      if x = c then [] :: splitChar c xs
      else
        match splitChar c xs with
        | [] => [[x]]
        | g :: gs => (x :: g) :: gs

/-- Model of Python `Path(s).parts` for relative paths and archive member
names: segments split on `/`, with empty and `.` segments dropped. -/
def pathParts (s : String) : List String :=
  ((splitChar '/' s.data).map (fun g => (⟨g⟩ : String))).filter
    (fun p => p ≠ "" ∧ p ≠ ".")

/-- Model of Python `str(Path(...))` rebuilt from its parts. -/
def pathStr (parts : List String) : String :=
  if parts = [] then "." else String.intercalate "/" parts

/-- Model of Python `Path(s).name`: the last path component. -/
def lastComponent (s : String) : String :=
  ((pathParts s).getLast?).getD ""

/-! ## Timestamps: `datetime.strptime(s, '%Y-%m-%d %H:%M:%S')` and
`strftime('%d.%m.%Y %H:%M')` as the renderer uses them. -/

/-- A parsed calendar timestamp (second precision). -/
structure DateTime6 where
  year : Nat
  month : Nat
  day : Nat
  hour : Nat
  minute : Nat
  second : Nat

/-- ASCII decimal digit test. -/
def isDig (c : Char) : Bool := 48 ≤ c.toNat && c.toNat ≤ 57

/-- Value of an ASCII decimal digit. -/
def digVal (c : Char) : Nat := c.toNat - 48

/-- Whitespace as matched by the `\s+` that `strptime` compiles a format-string
space into (ASCII portion). -/
def pyIsSpace (c : Char) : Bool :=
  c = ' ' || c = '\t' || c = '\n' || c = '\x0b' || c = '\x0c' || c = '\r'

/-- Exactly four digits (the `%Y` pattern of CPython `strptime`). -/
def parse4 : List Char → Option (Nat × List Char)
  | a :: b :: c :: d :: rest =>
      if isDig a && isDig b && isDig c && isDig d then
        some (digVal a * 1000 + digVal b * 100 + digVal c * 10 + digVal d, rest)
      else none
  | _ => none

/-- A one- or two-digit field: take two digits when the pair satisfies the
two-digit alternatives of the field's regex (given tens and ones digit),
else one digit when it satisfies the one-digit alternative.  Backtracking from
a two-digit match can never succeed here because the following format
character is never a digit, so this greedy rule equals the compiled regex. -/
def parse2or1 (ok2 : Nat → Nat → Bool) (ok1 : Nat → Bool) :
    List Char → Option (Nat × List Char)
  | a :: b :: rest =>
      if isDig a && isDig b && ok2 (digVal a) (digVal b) then
        some (digVal a * 10 + digVal b, rest)
      else if isDig a && ok1 (digVal a) then some (digVal a, b :: rest)
      else none
  | [a] => if isDig a && ok1 (digVal a) then some (digVal a, []) else none
  | [] => none

/-- Literal character of the format string. -/
def expectChar (c : Char) : List Char → Option (List Char)
  | x :: rest => if x = c then some rest else none
  | [] => none

/-- One-or-more whitespace (`\s+`), greedy. -/
def wsPlus : List Char → Option (List Char)
  | x :: rest => if pyIsSpace x then some (rest.dropWhile pyIsSpace) else none
  | [] => none

/-- Leap-year rule used by `datetime`. -/
def isLeap (y : Nat) : Bool := y % 4 = 0 && (y % 100 ≠ 0 || y % 400 = 0)

/-- Days in a month as `datetime` validates them. -/
def daysInMonth (y m : Nat) : Nat :=
  if m = 2 then (if isLeap y then 29 else 28)
  else if m = 4 || m = 6 || m = 9 || m = 11 then 30
  else 31

/-- Validation performed by the `datetime(...)` constructor after the regex
match: year 1..9999, day within the month, seconds at most 59. -/
def validDate (y mo d h mi s : Nat) : Bool :=
  1 ≤ y && y ≤ 9999 && 1 ≤ mo && mo ≤ 12 && 1 ≤ d && d ≤ daysInMonth y mo &&
    h ≤ 23 && mi ≤ 59 && s ≤ 59

/-- Model of `datetime.strptime(s, '%Y-%m-%d %H:%M:%S')`: the anchored regex
CPython compiles for that format (two-digit alternatives written out per
field), a full-consumption check, then constructor validation.  `none` is the
`ValueError` path. -/
def strptimeYmdHMS (s : String) : Option DateTime6 := do
  let cs := s.data
  let (y, cs) ← parse4 cs
  let cs ← expectChar '-' cs
  let (mo, cs) ← parse2or1 (fun t o => (t = 0 && 1 ≤ o) || (t = 1 && o ≤ 2))
      (fun v => 1 ≤ v) cs
  let cs ← expectChar '-' cs
  let (d, cs) ← parse2or1
      (fun t o => (t = 3 && o ≤ 1) || t = 1 || t = 2 || (t = 0 && 1 ≤ o))
      (fun v => 1 ≤ v) cs
  let cs ← wsPlus cs
  let (h, cs) ← parse2or1 (fun t o => (t = 2 && o ≤ 3) || t ≤ 1)
      (fun _ => true) cs
  let cs ← expectChar ':' cs
  let (mi, cs) ← parse2or1 (fun t _ => t ≤ 5) (fun _ => true) cs
  let cs ← expectChar ':' cs
  let (sec, cs) ← parse2or1 (fun t o => (t = 6 && o ≤ 1) || t ≤ 5)
      (fun _ => true) cs
  if cs = [] && validDate y mo d h mi sec then
    some ⟨y, mo, d, h, mi, sec⟩
  else none

/-- Two-digit zero padding of `strftime` numeric fields. -/
def pad2 (n : Nat) : String := if n < 10 then "0" ++ natRepr n else natRepr n

/-- Model of `strftime('%d.%m.%Y %H:%M')` (glibc prints `%Y` unpadded). -/
def strftimeDisp (t : DateTime6) : String :=
  pad2 t.day ++ "." ++ pad2 t.month ++ "." ++ natRepr t.year ++ " " ++
    pad2 t.hour ++ ":" ++ pad2 t.minute

/-! ## The renderer `tree_to_strings`. -/

/-- Membership in the renderer's metadata-key list
`['name', 'type', 'path', 'size', 'modif_date']`. -/
def metaKeyB (k : String) : Bool :=
  k == "name" || k == "type" || k == "path" || k == "size" || k == "modif_date"

/-- Python `v == some_string` for a tree value. -/
def valueIsStr (v : Value) (s : String) : Bool :=
  match v with
  | .vStr t => t == s
  | _ => false

/-- Python `d.get('type') == s` (a missing key compares unequal). -/
def typeIs (m : Dict) (s : String) : Bool :=
  match dictGet m "type" with
  | some v => valueIsStr v s
  | none => false

/-- First component of the renderer's sort key:
`0 if x[1].get('type') == 'folder' or x[1].get('type') == 'zip' else 1`. -/
def rankOf (m : Dict) : Nat :=
  if typeIs m "folder" || typeIs m "zip" then 0 else 1

/-- Strict lexicographic order on character lists by code point, the order
Python uses on the raw key strings. -/
def lexLt : List Char → List Char → Bool
  | [], [] => false
  | [], _ :: _ => true
  | _ :: _, [] => false
  | a :: as, b :: bs =>
      if a.toNat < b.toNat then true
      else if b.toNat < a.toNat then false
      else lexLt as bs

/-- Strict string order by code points (Python `<` on `str`). -/
def strLtb (s t : String) : Bool := lexLt s.data t.data

/-- Total preorder equivalent to Python's stable sort on the composite key
`(rank, raw key string)`. -/
def itemLE (a b : String × Dict) : Bool :=
  Nat.blt (rankOf a.2) (rankOf b.2) ||
    (rankOf a.2 == rankOf b.2 && !(strLtb b.1 a.1))

/-- Decoration step of `list.sort(key=...)`: every sibling value must be a
dict (`.get` on anything else raises, which `main` does not catch). -/
def asNodeItems : Dict → Option (List (String × Dict))
  | [] => some []
  | (k, Value.vNode m) :: rest => (asNodeItems rest).map (fun l => (k, m) :: l)
  | _ => none

/-- Date column of a rendered line: parse the stored value in
`%Y-%m-%d %H:%M:%S` and reformat, or fall back to the raw stored value
(`except (ValueError, TypeError)` in the source). -/
def dateStrOf (v : Value) : String :=
  match v with
  | .vStr s =>
      match strptimeYmdHMS s with
      | some t => strftimeDisp t
      | none => s
  | other => pyStr other

/-- A rendered line with an explicit date column, the pieces of
`f"{prefix}{prefix_tmp} {name} ({type}/{size} bytes/{date})"`. -/
def lineParts (pre k : String) (m : Dict) (dstr : String) : String :=
  pre ++ "      " ++ " " ++ pyStr (dictGetD m "name" (.vStr k)) ++ " (" ++
    pyStr (dictGetD m "type" (.vStr "")) ++ "/" ++
    pyStr (dictGetD m "size" (.vNat 0)) ++ " bytes" ++ "/" ++ dstr ++ ")"

/-- The full line the renderer appends for one sibling. -/
def lineFor (pre k : String) (m : Dict) : String :=
  lineParts pre k m (dateStrOf (dictGetD m "modif_date" (.vStr "")))

/-- Children of a node as the renderer collects them: every mapping entry
whose key is not one of the five metadata field names. -/
def nestedData (m : Dict) : Dict := m.filter (fun p => !(metaKeyB p.1))

/-- Insertion of `a` into a sorted list: before the first element `b` with
`le a b`. -/
def ordIns (le : α → α → Bool) (a : α) : List α → List α
  | [] => [a]
  | b :: l => if le a b then a :: b :: l else b :: ordIns le a l

/-- A stable sort by the total preorder `le`.  CPython's `list.sort` is a
stable sort, and a stable sort's output is uniquely determined by the
preorder, so this structural insertion sort computes exactly the order
`items.sort(key=...)` produces. -/
def stableSort (le : α → α → Bool) : List α → List α
  | [] => []
  | a :: l => ordIns le a (stableSort le l)

/-- Loop body of `tree_to_strings`: emit each sorted sibling's line, then
recurse (through `recur`, the renderer at the next fuel level) into
folder/zip children.  `none` models an uncaught exception (a non-dict
sibling value deeper down) or fuel exhaustion. -/
def renderItems (recur : Dict → String → Option (List String)) :
    List (String × Dict) → String → Option (List String)
  | [], _ => some []
  | (k, m) :: rest, pre =>
      if valueIsStr (dictGetD m "type" (.vStr "file")) "folder" ||
          valueIsStr (dictGetD m "type" (.vStr "file")) "zip" then
        match nestedData m with
        | [] => (renderItems recur rest pre).map (fun rl => lineFor pre k m :: rl)
        | nd =>
            match recur nd (pre ++ "      ") with
            | none => none
            | some sub =>
                (renderItems recur rest pre).map
                  (fun rl => lineFor pre k m :: (sub ++ rl))
      else
        (renderItems recur rest pre).map (fun rl => lineFor pre k m :: rl)

/-- Model of `tree_to_strings(data, prefix, ..., string)`: returns the lines
appended to `string`.  Sorts the sibling items with the composite key
(folders and zips first, then raw key string), then emits depth first. -/
def tree_to_strings : Nat → Dict → String → Option (List String)
  | 0, _, _ => none
  | f + 1, data, pre =>
      match asNodeItems data with
      | none => none
      | some its => renderItems (tree_to_strings f) (stableSort itemLE its) pre

/-! ## JSON serialization: `json.dumps(data, indent=2, ensure_ascii=False)`. -/

/-- CPython's JSON string escaping with `ensure_ascii=False`: only the quote,
the backslash and control characters below `0x20` are escaped (named short
escapes for backspace, tab, newline, form feed, carriage return; `\u00xx`
with lowercase hex otherwise). -/
def jsonEscapeChar (c : Char) : List Char :=
  if c = '"' then ['\\', '"']
  else if c = '\\' then ['\\', '\\']
  else if c = '\x08' then ['\\', 'b']
  else if c = '\x09' then ['\\', 't']
  else if c = '\x0a' then ['\\', 'n']
  else if c = '\x0c' then ['\\', 'f']
  else if c = '\x0d' then ['\\', 'r']
  else if c.toNat < 0x20 then
    ['\\', 'u', '0', '0', Nat.digitChar (c.toNat / 16), Nat.digitChar (c.toNat % 16)]
  else [c]

/-- A JSON string literal for `s`. -/
def jsonQuote (s : String) : String :=
  "\"" ++ ⟨s.data.flatMap jsonEscapeChar⟩ ++ "\""

/-- Indentation at nesting level `lvl` for `indent=2`. -/
def indentStr (lvl : Nat) : String := ⟨List.replicate (2 * lvl) ' '⟩

mutual
/-- Model of `json.dumps(v, indent=2, ensure_ascii=False)` at nesting level
`lvl`: an empty dict prints as `{}` and a non-empty dict opens a brace,
prints `"key": value` members joined by `,\n` plus indentation, and closes
the brace on its own indented line. -/
def dumpsV : Nat → Value → String
  | _, .vStr s => jsonQuote s
  | _, .vNat n => natRepr n
  | _, .vNode [] => "\x7b\x7d"
  | lvl, .vNode ((k, v) :: ms) =>
      "\x7b\n" ++ indentStr (lvl + 1) ++ jsonQuote k ++ ": " ++
        dumpsV (lvl + 1) v ++ dumpTail (lvl + 1) ms ++ "\n" ++
        indentStr lvl ++ "\x7d"

/-- The members after the first one, each preceded by `,\n` and indentation. -/
def dumpTail : Nat → List (String × Value) → String
  | _, [] => ""
  | lvl, (k, v) :: ms =>
      ",\n" ++ indentStr lvl ++ jsonQuote k ++ ": " ++ dumpsV lvl v ++
        dumpTail lvl ms
end

/-- Serialization of the whole tree mapping, as `JSONSaver.save` performs it. -/
def jsonDumps (d : Dict) : String := dumpsV 0 (.vNode d)

/-! ## The tree builder `DirectoryTree.scan`. -/

/-- One member of an open ZIP archive: its stored name, `file_size`, the
already-formatted `date_time` timestamp, and the entry list its bytes hold
when themselves opened as a ZIP archive (meaningful only for `.zip`
members, which are the only ones the code opens). -/
inductive ZEntry where
  | mk (filename : String) (fileSize : Nat) (dateTime : String)
      (content : List ZEntry)

/-- Stored member name (`ZipInfo.filename`). -/
def ZEntry.filename : ZEntry → String
  | .mk f _ _ _ => f

/-- Uncompressed size (`ZipInfo.file_size`). -/
def ZEntry.fileSize : ZEntry → Nat
  | .mk _ s _ _ => s

/-- The formatted `datetime(*date_time).strftime('%Y-%m-%d %H:%M:%S')`. -/
def ZEntry.dateTime : ZEntry → String
  | .mk _ _ d _ => d

/-- Entries of the member's bytes opened as a nested archive. -/
def ZEntry.content : ZEntry → List ZEntry
  | .mk _ _ _ c => c

/-- `ZipInfo.is_dir()`: the stored name ends with a slash. -/
def zipIsDir (e : ZEntry) : Bool := e.filename.data.getLast? == some '/'

/-- `zipf.read(name)` resolved through the archive's name-to-info dict
(the last member with that exact stored name wins); `none` is `KeyError`. -/
def zipRead (all : List ZEntry) (name : String) : Option (List ZEntry) :=
  match all with
  | [] => none
  | e :: rest =>
      match zipRead rest name with
      | some c => some c
      | none => if e.filename = name then some e.content else none

/-- The five metadata fields every created node starts with, in source
order. -/
def metaNode (nm ty pth : String) (sz : Nat) (md : String) : Dict :=
  [("name", .vStr nm), ("type", .vStr ty), ("path", .vStr pth),
   ("size", .vNat sz), ("modif_date", .vStr md)]

/-- Descend through the already-created `dir_…` nodes named by `dirs` and
assign `k ↦ v` in the mapping reached: the model of the
`current_level = current_level[key]` walk followed by
`current_level[key] = …`.  `none` is the KeyError/TypeError defect when an
intermediate key is missing or not a dict. -/
def setPath (st : Dict) (dirs : List String) (k : String) (v : Value) :
    Option Dict :=
  match dirs with
  | [] => some (dictSet st k v)
  | p :: rest =>
      match dictGet st p with
      | some (Value.vNode sub) =>
          (setPath sub rest k v).map (fun sub' => dictSet st p (.vNode sub'))
      | _ => none

/-- Processing of one archive member by `zip_tree`: derive the path parts and
the lowered suffix, walk the `dir_`-prefixed intermediate nodes, then create a
`dir_` folder node, a `zip_` archive node (recursing, through `recur`, into
the bytes read from the archive by the member's final name component), or a
`fol_` file node. -/
def zipStep (recur : List ZEntry → Dict → Option Dict) (all : List ZEntry)
    (st : Dict) (e : ZEntry) : Option Dict :=
  match (pathParts e.filename).getLast? with
  | none => none
  | some part =>
      if zipIsDir e then
        setPath st ((pathParts e.filename).dropLast.map (fun p => "dir_" ++ p))
          ("dir_" ++ part)
          (.vNode (metaNode part "folder" (pathStr (pathParts e.filename))
            e.fileSize e.dateTime))
      else if pyLower (pySuffix part) = ".zip" then
        match zipRead all part with
        | none => none
        | some inner =>
            match recur inner
                (metaNode part "zip" (pathStr (pathParts e.filename))
                  e.fileSize e.dateTime) with
            | none => none
            | some sub =>
                setPath st
                  ((pathParts e.filename).dropLast.map (fun p => "dir_" ++ p))
                  ("zip_" ++ part) (.vNode sub)
      else
        setPath st ((pathParts e.filename).dropLast.map (fun p => "dir_" ++ p))
          ("fol_" ++ part)
          (.vNode (metaNode part "file" (pathStr (pathParts e.filename))
            e.fileSize e.dateTime))

/-- The `for file_info in zipf.infolist()` loop of `zip_tree`. -/
def zipFold (recur : List ZEntry → Dict → Option Dict) (all : List ZEntry) :
    List ZEntry → Dict → Option Dict
  | [], st => some st
  | e :: rest, st =>
      match zipStep recur all st e with
      | none => none
      | some st' => zipFold recur all rest st'

/-- Model of `zip_tree(zip_file, structure)`: fold the archive's member list
into `structure` and return it.  The fuel bounds the nesting of archives
within archives; `none` also covers fuel exhaustion. -/
def zip_tree : Nat → List ZEntry → Dict → Option Dict
  | 0, _, _ => none
  | f + 1, entries, st => zipFold (zip_tree f) entries entries st

/-- One `Path.rglob('*')` result: its path parts relative to the scanned
root, whether it is a directory, its `stat` size, the formatted modification
time, and — when it is opened as a ZIP — the member list of its bytes. -/
structure FSEntry where
  relParts : List String
  entryIsDir : Bool
  size : Nat
  mtime : String
  zipContent : List ZEntry

/-- Final path component of a filesystem entry. -/
def fsName (e : FSEntry) : String := (e.relParts.getLast?).getD ""

/-- Processing of one filesystem entry by `folder_tree`: the same
classification as `zipStep`, with the ZIP branch opening the file on disk. -/
def folderStep (f : Nat) (st : Dict) (e : FSEntry) : Option Dict :=
  match e.relParts.getLast? with
  | none => none
  | some part =>
      if e.entryIsDir then
        setPath st (e.relParts.dropLast.map (fun p => "dir_" ++ p))
          ("dir_" ++ part)
          (.vNode (metaNode part "folder" (pathStr e.relParts) e.size e.mtime))
      else if pyLower (pySuffix part) = ".zip" then
        match zip_tree f e.zipContent
            (metaNode part "zip" (pathStr e.relParts) e.size e.mtime) with
        | none => none
        | some sub =>
            setPath st (e.relParts.dropLast.map (fun p => "dir_" ++ p))
              ("zip_" ++ part) (.vNode sub)
      else
        setPath st (e.relParts.dropLast.map (fun p => "dir_" ++ p))
          ("fol_" ++ part)
          (.vNode (metaNode part "file" (pathStr e.relParts) e.size e.mtime))

/-- The `for file_path in path.rglob('*')` loop. -/
def fsFold (f : Nat) (es : List FSEntry) (st : Dict) : Option Dict :=
  match es with
  | [] => some st
  | e :: rest =>
      match folderStep f st e with
      | none => none
      | some st' => fsFold f rest st'

/-- Model of `folder_tree(path)`: fold the walk results into an empty dict. -/
def folder_tree (f : Nat) (entries : List FSEntry) : Option Dict :=
  fsFold f entries []

/-- Observable result of one Python call: an uncaught defect, a raised
`ValueError` with its message, or a returned value. -/
inductive PyOutcome (α : Type) where
  | crash
  | valueError (msg : String)
  | ok (a : α)

/-- The root path argument as the program can observe it: whether it exists,
whether it is a directory, and what `Path.rglob('*')` yields beneath it
(verified: on an existing non-directory `rglob` yields nothing). -/
structure RootPath where
  pexists : Bool
  pIsDir : Bool
  listing : List FSEntry

/-- Model of `check_path`: `ValueError` exactly when the path does not
exist. -/
def check_path (p : RootPath) (pathName : String) : Option String :=
  if p.pexists then none
  else some ("Путь '" ++ pathName ++ "' не существует")

/-- Model of `DirectoryTree.scan`: validate the root with `check_path`, then
build the tree from the walk results. -/
def scan (f : Nat) (pathName : String) (p : RootPath) : PyOutcome Dict :=
  match check_path p pathName with
  | some msg => .valueError msg
  | none =>
      match folder_tree f p.listing with
      | none => .crash
      | some d => .ok d

/-! ## Output writers and `main`. -/

/-- The state of the report target path: `check_file` requires it to exist
already and not be a directory. -/
structure FileTarget where
  fexists : Bool
  fIsDir : Bool

/-- Model of `check_file`: `check_path` on the report path, then reject
directories. -/
def check_file (t : FileTarget) (name : String) : Option String :=
  if ¬ t.fexists then some ("Путь '" ++ name ++ "' не существует")
  else if t.fIsDir then some ("'" ++ name ++ "' не является файлом")
  else none

/-- The three writer classes the factory can instantiate. -/
inductive SaverKind where
  | json
  | docx
  | pdf

/-- Model of `SaverFactory.create_saver`: dictionary dispatch on the lowered
extension string, `ValueError` for anything unrecognized. -/
def create_saver (formatType : String) : Except String SaverKind :=
  if pyLower formatType = ".json" then .ok .json
  else if pyLower formatType = ".docx" then .ok .docx
  else if pyLower formatType = ".pdf" then .ok .pdf
  else .error ("Неподдерживаемый формат: " ++ formatType)

/-- The DOCX document content: one fixed heading, then the rendered tree
lines as paragraphs (the document library is modelled as this line list). -/
def docxContent (lines : List String) : String :=
  String.intercalate "\n" ("Пример .Docx" :: lines)

/-- Model of `<Saver>.save(data, file)`: the pair is (content written at the
target path if any, value returned to the caller if not `None`).
`JSONSaver` validates then writes the JSON dump; `DOCXSaver` validates,
renders the tree and writes the document; `PDFSaver.save` is `pass`. -/
def saverSave (f : Nat) (k : SaverKind) (data : Dict) (t : FileTarget)
    (reportName : String) : PyOutcome (Option String × Option String) :=
  match k with
  | .json =>
      match check_file t reportName with
      | some msg => .valueError msg
      | none => .ok (some (jsonDumps data), some "Данные сохранены в .json")
  | .docx =>
      match check_file t reportName with
      | some msg => .valueError msg
      | none =>
          match tree_to_strings f data "" with
          | none => .crash
          | some lines =>
              .ok (some (docxContent lines), some "Данные сохранены в .docx")
  | .pdf => .ok (none, none)

/-- Observable result of one `main` run: the lines printed and the content
written at the report path, if any. -/
structure RunResult where
  printed : List String
  written : Option String

/-- Model of `main`: compute the format from the report path's suffix, scan
(reporting `ValueError` as a printed diagnostic), create the saver, save, and
print either the returned message (`str(None)` is `"None"`) or the
diagnostic.  `crash` models the exceptions `main` does not catch. -/
def mainRun (f : Nat) (pathName : String) (root : RootPath)
    (reportName : String) (report : FileTarget) : PyOutcome RunResult :=
  let formatType := pyLower (pySuffix (lastComponent reportName))
  match scan f pathName root with
  | .valueError e => .ok ⟨["Ошибка: " ++ e], none⟩
  | .crash => .crash
  | .ok tree =>
      match create_saver formatType with
      | .error e => .ok ⟨["Ошибка: " ++ e], none⟩
      | .ok k =>
          match saverSave f k tree report reportName with
          | .valueError e => .ok ⟨["Ошибка: " ++ e], none⟩
          | .crash => .crash
          | .ok (written, result) =>
              .ok ⟨[(result.getD "None")], written⟩

/-! ## JSON parsing: a model of `json.loads` sufficient for round-tripping
the writer's output (object/string/non-negative-int fragment). -/

/-- JSON whitespace accepted between tokens by `json.loads`. -/
def isWsJson (c : Char) : Bool := c = ' ' || c = '\t' || c = '\n' || c = '\r'

/-- Skip inter-token whitespace. -/
def skipWsJ (cs : List Char) : List Char := cs.dropWhile isWsJson

/-- Hexadecimal digit value. -/
def hexVal (c : Char) : Option Nat :=
  if isDig c then some (c.toNat - 48)
  else if 'a' ≤ c ∧ c ≤ 'f' then some (c.toNat - 87)
  else if 'A' ≤ c ∧ c ≤ 'F' then some (c.toNat - 55)
  else none

/-- Single-character JSON escapes. -/
def escDecode (c : Char) : Option Char :=
  if c = '"' then some '"'
  else if c = '\\' then some '\\'
  else if c = '/' then some '/'
  else if c = 'b' then some '\x08'
  else if c = 'f' then some '\x0c'
  else if c = 'n' then some '\x0a'
  else if c = 'r' then some '\x0d'
  else if c = 't' then some '\x09'
  else none

/-- Body of a JSON string literal (after the opening quote): decoded
characters and the remainder after the closing quote.  Strict mode: raw
control characters are rejected; lone surrogates (which the writer never
emits) are rejected rather than decoded. -/
def parseStrLoop : List Char → Option (List Char × List Char)
  | [] => none
  | '"' :: rest => some ([], rest)
  | '\\' :: 'u' :: a :: b :: c :: d :: rest =>
      (match hexVal a, hexVal b, hexVal c, hexVal d with
       | some ha, some hb, some hc, some hd =>
          let n := ((ha * 16 + hb) * 16 + hc) * 16 + hd
          if 0xd800 ≤ n ∧ n ≤ 0xdfff then none
          else (parseStrLoop rest).map (fun p => (Char.ofNat n :: p.1, p.2))
       | _, _, _, _ => none)
  | '\\' :: e :: rest =>
      (match escDecode e with
       | some ch => (parseStrLoop rest).map (fun p => (ch :: p.1, p.2))
       | none => none)
  | c :: rest =>
      if c.toNat < 0x20 then none
      else (parseStrLoop rest).map (fun p => (c :: p.1, p.2))

/-- Digit-run accumulator of the number scanner. -/
def parseNatLoop (acc : Nat) : List Char → Nat × List Char
  | [] => (acc, [])
  | c :: cs =>
      if isDig c then parseNatLoop (10 * acc + digVal c) cs else (acc, c :: cs)

/-- A JSON non-negative integer: `0`, or a nonzero digit followed by a
digit run (leading zeros are not part of the number). -/
def parseNatJ : List Char → Option (Nat × List Char)
  | [] => none
  | c :: cs =>
      if c = '0' then some (0, cs)
      else if isDig c then some (parseNatLoop (digVal c) cs)
      else none

/-- The members of an object after the first one: a comma then `"key": value`
repeatedly, or the closing brace.  Member values are parsed by `recur` (the
value parser one fuel level down); members accumulate with `dictSet`, the
dict-building rule of `json.loads`. -/
def parseMoreMembers (recur : List Char → Option (Value × List Char)) :
    Nat → Dict → List Char → Option (Dict × List Char)
  | 0, _, _ => none
  | g + 1, acc, cs =>
      match skipWsJ cs with
      | '\x7d' :: rest => some (acc, rest)
      | ',' :: rest =>
          (match skipWsJ rest with
           | '"' :: rest2 =>
              (match parseStrLoop rest2 with
               | none => none
               | some (kcs, rest3) =>
                  match skipWsJ rest3 with
                  | ':' :: rest4 =>
                      (match recur (skipWsJ rest4) with
                       | none => none
                       | some (v, rest5) =>
                          parseMoreMembers recur g (dictSet acc ⟨kcs⟩ v) rest5)
                  | _ => none)
           | _ => none)
      | _ => none

/-- A JSON value of the writer's fragment: an object, a string, or a
non-negative integer.  The fuel bounds the nesting depth and the member
count of each object. -/
def parseValueJ : Nat → List Char → Option (Value × List Char)
  | 0, _ => none
  | f + 1, cs =>
      match skipWsJ cs with
      | '\x7b' :: rest =>
          (match skipWsJ rest with
           | '\x7d' :: rest2 => some (.vNode [], rest2)
           | '"' :: rest2 =>
              (match parseStrLoop rest2 with
               | none => none
               | some (kcs, rest3) =>
                  match skipWsJ rest3 with
                  | ':' :: rest4 =>
                      (match parseValueJ f (skipWsJ rest4) with
                       | none => none
                       | some (v, rest5) =>
                          (parseMoreMembers (parseValueJ f) f
                              (dictSet [] ⟨kcs⟩ v) rest5).map
                            (fun p => (.vNode p.1, p.2)))
                  | _ => none)
           | _ => none)
      | '"' :: rest =>
          (match parseStrLoop rest with
           | some (scs, rest2) => some (.vStr ⟨scs⟩, rest2)
           | none => none)
      | c :: rest =>
          if isDig c then
            (match parseNatJ (c :: rest) with
             | some (n, rest2) => some (.vNat n, rest2)
             | none => none)
          else none
      | [] => none

/-- Object results are wrapped back into a tree value. -/
def jsonLoads (s : String) : Option Value :=
  match parseValueJ (s.data.length + 1) s.data with
  | some (v, rest) => if skipWsJ rest = [] then some v else none
  | none => none

/-! ## Predicates used by the statements. -/

/-- Boolean string-prefix test on the underlying character lists. -/
def strStarts (pre s : String) : Bool := pre.data.isPrefixOf s.data

/-- A child key's prefix agrees with the stored `type` field of the child:
`dir_` for folder nodes, `zip_` for zip archive nodes, `fol_` for file
nodes. -/
def keyTagOk (k : String) (d : Dict) : Bool :=
  (strStarts "dir_" k && typeIs d "folder") ||
    (strStarts "zip_" k && typeIs d "zip") ||
    (strStarts "fol_" k && typeIs d "file")

mutual
/-- Every entry of a built mapping is either one of the five metadata fields
or a child: a nested node whose key prefix agrees with its `type` field and
which recursively satisfies the same property. -/
def goodMembers : List (String × Value) → Bool
  | [] => true
  | (k, v) :: rest => goodEntry k v && goodMembers rest

/-- One entry of a built mapping (see `goodMembers`). -/
def goodEntry (k : String) (v : Value) : Bool :=
  metaKeyB k ||
    (match v with
     | .vNode d => keyTagOk k d && goodMembers d
     | _ => false)
end

/-- Membership of a key in a dict. -/
def keyMem (k : String) (d : Dict) : Bool := d.any (fun p => p.1 == k)

mutual
/-- The value is a faithful image of a Python object: every dict inside it
has pairwise-distinct keys (association lists are more general than dicts;
this cuts them back down). -/
def wfVal : Value → Bool
  | .vStr _ => true
  | .vNat _ => true
  | .vNode d => wfMembers d

/-- Well-formedness of a member list (see `wfVal`). -/
def wfMembers : List (String × Value) → Bool
  | [] => true
  | (k, v) :: rest => !(keyMem k rest) && wfVal v && wfMembers rest
end

mutual
/-- Parser fuel sufficient for a value (one unit per parser call). -/
def needV : Value → Nat
  | .vStr _ => 1
  | .vNat _ => 1
  | .vNode [] => 1
  | .vNode ((_, v) :: ms) => 1 + max (needV v) (needMt ms)

/-- Parser fuel sufficient for the members after the first one. -/
def needMt : List (String × Value) → Nat
  | [] => 1
  | (_, v) :: ms => 1 + max (needV v) (needMt ms)
end

/-- The sibling order the specification claims for rendered output: strictly
smaller rank (folders and archives are rank 0, files rank 1) or, at equal
rank, strictly smaller raw structural key string. -/
def sibBefore (a b : String × Dict) : Prop :=
  rankOf a.2 < rankOf b.2 ∨
    (rankOf a.2 = rankOf b.2 ∧ strLtb a.1 b.1 = true)

/-! ## Theorems. -/

/-- C3: for every node, when the stored `modif_date` value is a string that
does not parse in the `%Y-%m-%d %H:%M:%S` format the renderer's line carries
the raw stored string verbatim in the date column (and the renderer, a total
function, does not raise); when it parses, the line carries the
`DD.MM.YYYY HH:MM` reformatting; a non-string stored value is carried
through `str()`. -/
theorem C3_date_fallback (pre k : String) (m : Dict) :
    (∀ s : String, dictGetD m "modif_date" (.vStr "") = .vStr s →
      (strptimeYmdHMS s = none → lineFor pre k m = lineParts pre k m s) ∧
      (∀ t, strptimeYmdHMS s = some t →
        lineFor pre k m = lineParts pre k m (strftimeDisp t))) ∧
    (∀ v, dictGetD m "modif_date" (.vStr "") = v → (∀ s, v ≠ .vStr s) →
      lineFor pre k m = lineParts pre k m (pyStr v)) := by
  constructor
  · intro s hs
    constructor
    · intro hp
      unfold lineFor
      rw [hs]
      simp [dateStrOf, hp]
    · intro t hp
      unfold lineFor
      rw [hs]
      simp [dateStrOf, hp]
  · intro v hv hns
    unfold lineFor
    rw [hv]
    cases v with
    | vStr s => exact absurd rfl (hns s)
    | vNat n => simp [dateStrOf, pyStr]
    | vNode d => simp [dateStrOf, pyStr]

/-- Witness for C3 at concrete inputs: a malformed timestamp `"abc"` is
emitted verbatim, and `"2024-05-06 07:08:09"` renders as
`"06.05.2024 07:08"`. -/
theorem C3_date_fallback_witness :
    lineFor "" "k0" (metaNode "a.txt" "file" "a.txt" 5 "abc") =
      lineParts "" "k0" (metaNode "a.txt" "file" "a.txt" 5 "abc") "abc" ∧
    lineFor "" "k1" (metaNode "b.txt" "file" "b.txt" 7 "2024-05-06 07:08:09") =
      lineParts "" "k1" (metaNode "b.txt" "file" "b.txt" 7 "2024-05-06 07:08:09")
        "06.05.2024 07:08" := by
  constructor
  · exact ((C3_date_fallback "" "k0"
      (metaNode "a.txt" "file" "a.txt" 5 "abc")).1 "abc" rfl).1 rfl
  · exact ((C3_date_fallback "" "k1"
      (metaNode "b.txt" "file" "b.txt" 7 "2024-05-06 07:08:09")).1
      "2024-05-06 07:08:09" rfl).2 ⟨2024, 5, 6, 7, 8, 9⟩ rfl

/-- C9: a `.pdf` report target passes the factory's format validation, and
the created saver's save operation writes nothing to the target path and
returns no success message (`PDFSaver.save` is `pass`). -/
theorem C9_pdf_accepted_but_noop (f : Nat) (d : Dict) (t : FileTarget)
    (rn : String) :
    create_saver ".pdf" = Except.ok SaverKind.pdf ∧
    saverSave f SaverKind.pdf d t rn = PyOutcome.ok (none, none) := by
  exact ⟨rfl, rfl⟩

/-- C7: when the report path's extension is none of the recognized formats,
the factory raises the reported `ValueError` and the run prints the
diagnostic and writes nothing at the target path. -/
theorem C7_unrecognized_ext (f : Nat) (pathName : String) (root : RootPath)
    (reportName : String) (report : FileTarget) (tree : Dict)
    (hscan : scan f pathName root = PyOutcome.ok tree)
    (h1 : pyLower (pyLower (pySuffix (lastComponent reportName))) ≠ ".json")
    (h2 : pyLower (pyLower (pySuffix (lastComponent reportName))) ≠ ".docx")
    (h3 : pyLower (pyLower (pySuffix (lastComponent reportName))) ≠ ".pdf") :
    create_saver (pyLower (pySuffix (lastComponent reportName))) =
      Except.error
        ("Неподдерживаемый формат: " ++ pyLower (pySuffix (lastComponent reportName))) ∧
    mainRun f pathName root reportName report =
      PyOutcome.ok
        ⟨["Ошибка: " ++
            ("Неподдерживаемый формат: " ++
              pyLower (pySuffix (lastComponent reportName)))], none⟩ := by
  have hcs : create_saver (pyLower (pySuffix (lastComponent reportName))) =
      Except.error
        ("Неподдерживаемый формат: " ++
          pyLower (pySuffix (lastComponent reportName))) := by
    unfold create_saver
    rw [if_neg h1, if_neg h2, if_neg h3]
  refine ⟨hcs, ?_⟩
  simp [mainRun, hscan, hcs]

/-- Witness for C7 at a concrete `.txt` report target. -/
theorem C7_unrecognized_ext_witness :
    create_saver (pyLower (pySuffix (lastComponent "out.txt"))) =
      Except.error
        ("Неподдерживаемый формат: " ++ pyLower (pySuffix (lastComponent "out.txt"))) ∧
    mainRun 1 "root" ⟨true, true, []⟩ "out.txt" ⟨true, false⟩ =
      PyOutcome.ok
        ⟨["Ошибка: " ++
            ("Неподдерживаемый формат: " ++
              pyLower (pySuffix (lastComponent "out.txt")))], none⟩ := by
  exact C7_unrecognized_ext 1 "root" ⟨true, true, []⟩ "out.txt" ⟨true, false⟩ []
    rfl (by decide) (by decide) (by decide)

/-- C8: on the validating savers (JSON and DOCX), a report target that does
not already exist or that is a directory makes `check_file` raise, the save
raises that `ValueError` before writing anything, and the run prints the
diagnostic and writes nothing. -/
theorem C8_report_validation (f : Nat) (pathName : String) (root : RootPath)
    (reportName : String) (report : FileTarget) (tree : Dict) (k : SaverKind)
    (hscan : scan f pathName root = PyOutcome.ok tree)
    (hcs : create_saver (pyLower (pySuffix (lastComponent reportName))) =
      Except.ok k)
    (hk : k = SaverKind.json ∨ k = SaverKind.docx)
    (hbad : report.fexists = false ∨ report.fIsDir = true) :
    ∃ msg, saverSave f k tree report reportName = PyOutcome.valueError msg ∧
      mainRun f pathName root reportName report =
        PyOutcome.ok ⟨["Ошибка: " ++ msg], none⟩ := by
  have hcf : ∃ msg, check_file report reportName = some msg := by
    cases hfe : report.fexists with
    | false =>
        refine ⟨"Путь '" ++ reportName ++ "' не существует", ?_⟩
        unfold check_file
        rw [hfe]
        simp
    | true =>
        have hb : report.fIsDir = true := by
          rcases hbad with hb | hb
          · rw [hfe] at hb
            cases hb
          · exact hb
        refine ⟨"'" ++ reportName ++ "' не является файлом", ?_⟩
        unfold check_file
        rw [hfe, hb]
        simp
  obtain ⟨msg, hmsg⟩ := hcf
  have hss : saverSave f k tree report reportName =
      PyOutcome.valueError msg := by
    rcases hk with hk | hk <;> subst hk <;> unfold saverSave <;> rw [hmsg]
  refine ⟨msg, hss, ?_⟩
  simp [mainRun, hscan, hcs, hss]

/-- Witness for C8: a JSON save aimed at a not-yet-existing report path is
rejected with the reported diagnostic and no write. -/
theorem C8_report_validation_witness :
    ∃ msg,
      saverSave 1 SaverKind.json [] ⟨false, false⟩ "out.json" =
        PyOutcome.valueError msg ∧
      mainRun 1 "root" ⟨true, true, []⟩ "out.json" ⟨false, false⟩ =
        PyOutcome.ok ⟨["Ошибка: " ++ msg], none⟩ := by
  exact C8_report_validation 1 "root" ⟨true, true, []⟩ "out.json"
    ⟨false, false⟩ [] SaverKind.json rfl rfl (Or.inl rfl) (Or.inl rfl)

/-- C6 counterexample: a root path that exists but is a plain file is not
rejected — `check_path` only tests existence, `rglob` yields nothing under a
non-directory, and `scan` returns an empty tree instead of aborting. -/
theorem C6_counterexample :
    scan 1 "afile.txt" ⟨true, false, []⟩ = PyOutcome.ok [] := rfl

/-- C6 as amended: the builder aborts with the reported error exactly when
the root path does not exist; an existing root that is not a directory is
not rejected — the walk yields nothing beneath it and the builder returns an
empty tree. -/
theorem C6_amended (f : Nat) (pathName : String) (p : RootPath) :
    (p.pexists = false →
      scan f pathName p =
        PyOutcome.valueError ("Путь '" ++ pathName ++ "' не существует")) ∧
    (p.pexists = true → p.pIsDir = false → p.listing = [] →
      scan f pathName p = PyOutcome.ok []) := by
  constructor
  · intro h
    unfold scan check_path
    rw [h]
    simp
  · intro he _ hl
    unfold scan check_path
    rw [he, hl]
    simp [folder_tree, fsFold]

/-- Witness for C6 (amended) at concrete roots: a missing path aborts with
the reported message, an existing non-directory yields the empty tree. -/
theorem C6_amended_witness :
    scan 0 "nosuch" ⟨false, true, []⟩ =
      PyOutcome.valueError "Путь 'nosuch' не существует" ∧
    scan 0 "plainfile" ⟨true, false, []⟩ = PyOutcome.ok [] := by
  constructor
  · exact (C6_amended 0 "nosuch" ⟨false, true, []⟩).1 rfl
  · exact (C6_amended 0 "plainfile" ⟨true, false, []⟩).2 rfl rfl rfl

/-- Appending to a fixed string on the left is injective. -/
theorem strAppendLeftCancel {s a b : String} (h : s ++ a = s ++ b) :
    a = b := by
  have h' := congrArg String.data h
  rw [String.data_append, String.data_append] at h'
  exact String.ext (List.append_cancel_left h')

/-- Assignment with a key absent from the dict appends the pair. -/
theorem dictSet_fresh (d : Dict) (k : String) (v : Value)
    (h : ∀ p ∈ d, p.1 ≠ k) : dictSet d k v = d ++ [(k, v)] := by
  induction d with
  | nil => rfl
  | cons p rest ih =>
      unfold dictSet
      rw [if_neg (h p (List.mem_cons_self p rest))]
      rw [ih (fun q hq => h q (List.mem_cons_of_mem p hq))]
      simp

/-- The walk loop on a listing of plain files (single path component, not a
directory, suffix other than `.zip`) appends one `fol_` file node per entry,
provided the keys are fresh and the names distinct. -/
theorem fsFold_files (f : Nat) (es : List FSEntry) (st : Dict)
    (hsing : ∀ e ∈ es, e.relParts = [fsName e] ∧ e.entryIsDir = false ∧
      pyLower (pySuffix (fsName e)) ≠ ".zip")
    (hfresh : ∀ e ∈ es, ∀ p ∈ st, p.1 ≠ "fol_" ++ fsName e)
    (hnd : (es.map fsName).Nodup) :
    fsFold f es st = some (st ++ es.map (fun e =>
      ("fol_" ++ fsName e,
        Value.vNode (metaNode (fsName e) "file" (pathStr [fsName e])
          e.size e.mtime)))) := by
  induction es generalizing st with
  | nil => simp [fsFold]
  | cons e rest ih =>
      obtain ⟨hs1, hs2, hs3⟩ := hsing e (List.mem_cons_self e rest)
      have hstep : folderStep f st e = some (dictSet st ("fol_" ++ fsName e)
          (Value.vNode (metaNode (fsName e) "file" (pathStr [fsName e])
            e.size e.mtime))) := by
        unfold folderStep
        rw [hs1, hs2]
        simp [hs3, setPath]
      have hset := dictSet_fresh st ("fol_" ++ fsName e)
        (Value.vNode (metaNode (fsName e) "file" (pathStr [fsName e])
          e.size e.mtime))
        (fun p hp => hfresh e (List.mem_cons_self e rest) p hp)
      have hrest := ih
        (st ++ [("fol_" ++ fsName e,
          Value.vNode (metaNode (fsName e) "file" (pathStr [fsName e])
            e.size e.mtime))])
        (fun e' he' => hsing e' (List.mem_cons_of_mem e he'))
        (fun e' he' p hp => by
          rcases List.mem_append.mp hp with hin | hin
          · exact hfresh e' (List.mem_cons_of_mem e he') p hin
          · have hpk : p = ("fol_" ++ fsName e,
                Value.vNode (metaNode (fsName e) "file" (pathStr [fsName e])
                  e.size e.mtime)) := by simpa using hin
            subst hpk
            intro hcontra
            have heq : fsName e = fsName e' := strAppendLeftCancel hcontra
            have hmem : fsName e ∈ rest.map fsName :=
              heq ▸ List.mem_map_of_mem fsName he'
            exact (List.nodup_cons.mp hnd).1 hmem)
        (List.nodup_cons.mp hnd).2
      show fsFold f (e :: rest) st = _
      unfold fsFold
      rw [hstep, hset]
      simp [hrest]

/-- C5: for a root whose walk yields only plain files (one path component
each, no directories, no ZIP suffix) with distinct names, the built tree is
the single-level mapping with exactly one `fol_` entry per file, and every
entry's stored kind is `file`. -/
theorem C5_flat_files (f : Nat) (es : List FSEntry)
    (hsing : ∀ e ∈ es, e.relParts = [fsName e] ∧ e.entryIsDir = false ∧
      pyLower (pySuffix (fsName e)) ≠ ".zip")
    (hnd : (es.map fsName).Nodup) :
    folder_tree f es = some (es.map (fun e =>
      ("fol_" ++ fsName e,
        Value.vNode (metaNode (fsName e) "file" (pathStr [fsName e])
          e.size e.mtime)))) ∧
    (es.map (fun e =>
      ("fol_" ++ fsName e,
        Value.vNode (metaNode (fsName e) "file" (pathStr [fsName e])
          e.size e.mtime)))).length = es.length ∧
    ∀ e ∈ es,
      dictGet (metaNode (fsName e) "file" (pathStr [fsName e]) e.size e.mtime)
        "type" = some (.vStr "file") := by
  refine ⟨?_, List.length_map es _, ?_⟩
  · have := fsFold_files f es [] hsing (by intro e _ p hp; cases hp) hnd
    unfold folder_tree
    simpa using this
  · intro e _
    simp [metaNode, dictGet]

/-- Witness for C5 at a concrete two-file listing. -/
theorem C5_flat_files_witness :
    folder_tree 1 [⟨["b.txt"], false, 5, "t1", []⟩,
        ⟨["a.txt"], false, 7, "t2", []⟩] =
      some [("fol_b.txt", Value.vNode (metaNode "b.txt" "file"
              (pathStr ["b.txt"]) 5 "t1")),
            ("fol_a.txt", Value.vNode (metaNode "a.txt" "file"
              (pathStr ["a.txt"]) 7 "t2"))] := by
  have h := C5_flat_files 1
    [⟨["b.txt"], false, 5, "t1", []⟩, ⟨["a.txt"], false, 7, "t2", []⟩]
    (by intro e he
        fin_cases he <;> exact ⟨rfl, rfl, by decide⟩)
    (by decide)
  simpa using h.1

/-- C2: a non-directory archive member whose name has the `.zip` suffix
(case-insensitively) is stored as a `zip_`-keyed archive node whose children
are exactly the result of running the same `zip_tree` classification on the
entries of the archive bytes read for it; and the concrete two-level fixture
(a ZIP containing a ZIP containing a file) builds the outer archive node with
an archive-node child holding the inner archive's own entries. -/
theorem C2_zip_recursion :
    (∀ (f : Nat) (all : List ZEntry) (st : Dict) (e : ZEntry) (nm : String)
        (inner : List ZEntry) (sub : Dict),
      pathParts e.filename = [nm] → zipIsDir e = false →
      pyLower (pySuffix nm) = ".zip" → zipRead all nm = some inner →
      zip_tree f inner
          (metaNode nm "zip" (pathStr [nm]) e.fileSize e.dateTime) =
        some sub →
      zipStep (zip_tree f) all st e =
        some (dictSet st ("zip_" ++ nm) (.vNode sub))) ∧
    folder_tree 3 [⟨["outer.zip"], false, 200, "t-outer",
        [ZEntry.mk "inner.zip" 100 "t-inner"
          [ZEntry.mk "file.txt" 3 "t-file" []]]⟩] =
      some [("zip_outer.zip", .vNode
        (metaNode "outer.zip" "zip" (pathStr ["outer.zip"]) 200 "t-outer" ++
          [("zip_inner.zip", .vNode
            (metaNode "inner.zip" "zip" (pathStr ["inner.zip"]) 100 "t-inner" ++
              [("fol_file.txt", .vNode
                (metaNode "file.txt" "file" (pathStr ["file.txt"])
                  3 "t-file"))]))]))] := by
  constructor
  · intro f all st e nm inner sub h1 h2 h3 h4 h5
    unfold zipStep
    rw [h1]
    simp [h2, h3, h4, h5, setPath]
  · rfl

/-- Witness for C2 at a concrete archive: a top-level `inner.zip` member is
stored as an archive node carrying the recursive scan of its own entries. -/
theorem C2_zip_recursion_witness :
    zipStep (zip_tree 1)
        [ZEntry.mk "inner.zip" 100 "t-inner" [ZEntry.mk "file.txt" 3 "t-file" []]]
        []
        (ZEntry.mk "inner.zip" 100 "t-inner" [ZEntry.mk "file.txt" 3 "t-file" []]) =
      some (dictSet [] ("zip_" ++ "inner.zip") (.vNode
        (metaNode "inner.zip" "zip" (pathStr ["inner.zip"]) 100 "t-inner" ++
          [("fol_file.txt", .vNode
            (metaNode "file.txt" "file" (pathStr ["file.txt"]) 3 "t-file"))]))) := by
  exact C2_zip_recursion.1 1
    [ZEntry.mk "inner.zip" 100 "t-inner" [ZEntry.mk "file.txt" 3 "t-file" []]]
    []
    (ZEntry.mk "inner.zip" 100 "t-inner" [ZEntry.mk "file.txt" 3 "t-file" []])
    "inner.zip"
    [ZEntry.mk "file.txt" 3 "t-file" []]
    (metaNode "inner.zip" "zip" (pathStr ["inner.zip"]) 100 "t-inner" ++
      [("fol_file.txt", Value.vNode
        (metaNode "file.txt" "file" (pathStr ["file.txt"]) 3 "t-file"))])
    rfl rfl rfl rfl rfl

/-- Characters with equal code points are equal. -/
theorem charToNat_inj {a b : Char} (h : a.toNat = b.toNat) : a = b :=
  Char.ext (UInt32.ext h)

/-- Strict lexicographic order is irreflexive. -/
theorem lexLt_irrefl (l : List Char) : lexLt l l = false := by
  induction l with
  | nil => rfl
  | cons a as ih => simp [lexLt, ih]

/-- Strict lexicographic order is transitive. -/
theorem lexLt_trans :
    ∀ l₁ l₂ l₃, lexLt l₁ l₂ = true → lexLt l₂ l₃ = true →
      lexLt l₁ l₃ = true := by
  intro l₁
  induction l₁ with
  | nil =>
      intro l₂ l₃ h12 h23
      cases l₂ with
      | nil => exact h23
      | cons b bs =>
          cases l₃ with
          | nil => simp [lexLt] at h23
          | cons c cs => rfl
  | cons a as ih =>
      intro l₂ l₃ h12 h23
      cases l₂ with
      | nil => simp [lexLt] at h12
      | cons b bs =>
          cases l₃ with
          | nil => simp [lexLt] at h23
          | cons c cs =>
              simp only [lexLt] at h12 h23 ⊢
              split_ifs at h12 h23 ⊢ <;>
                first
                | rfl
                | (exact ih bs cs h12 h23)
                | (exfalso; omega)

/-- Two lists neither of which lexicographically precedes the other are
equal. -/
theorem lexLt_eq_of_not :
    ∀ l₁ l₂, lexLt l₁ l₂ = false → lexLt l₂ l₁ = false → l₁ = l₂ := by
  intro l₁
  induction l₁ with
  | nil =>
      intro l₂ h12 _
      cases l₂ with
      | nil => rfl
      | cons b bs => simp [lexLt] at h12
  | cons a as ih =>
      intro l₂ h12 h21
      cases l₂ with
      | nil => simp [lexLt] at h21
      | cons b bs =>
          simp only [lexLt] at h12 h21
          split_ifs at h12 h21 with h₁ h₂ <;>
            first
            | (simp_all; done)
            | omega
            | (exact List.cons_eq_cons.mpr
                ⟨charToNat_inj (by omega), ih bs h12 h21⟩)

/-- String-level strict order: transitivity. -/
theorem strLtb_trans {s t u : String} (h1 : strLtb s t = true)
    (h2 : strLtb t u = true) : strLtb s u = true :=
  lexLt_trans s.data t.data u.data h1 h2

/-- String-level strict order: irreflexivity. -/
theorem strLtb_irrefl (s : String) : strLtb s s = false :=
  lexLt_irrefl s.data

/-- Strings neither of which strictly precedes the other are equal. -/
theorem strLtb_eq_of_not {s t : String} (h1 : strLtb s t = false)
    (h2 : strLtb t s = false) : s = t :=
  String.ext (lexLt_eq_of_not s.data t.data h1 h2)

/-- Strings cannot strictly precede each other both ways. -/
theorem strLtb_asymm {s t : String} (h1 : strLtb s t = true) :
    strLtb t s = false := by
  cases h2 : strLtb t s with
  | false => rfl
  | true =>
      have := strLtb_trans h1 h2
      rw [strLtb_irrefl] at this
      cases this

/-- The renderer's composite preorder is total. -/
theorem itemLE_total (a b : String × Dict) :
    itemLE a b = true ∨ itemLE b a = true := by
  unfold itemLE
  rcases Nat.lt_trichotomy (rankOf a.2) (rankOf b.2) with h | h | h
  · left
    simp [Nat.blt_eq, h]
  · cases hab : strLtb b.1 a.1 with
    | false => left; simp [Nat.blt_eq, h, hab]
    | true => right; simp [Nat.blt_eq, h, strLtb_asymm hab]
  · right
    simp [Nat.blt_eq, h]

/-- The renderer's composite preorder is transitive. -/
theorem itemLE_trans (a b c : String × Dict) (h1 : itemLE a b = true)
    (h2 : itemLE b c = true) : itemLE a c = true := by
  unfold itemLE at h1 h2 ⊢
  simp only [Bool.or_eq_true, Bool.and_eq_true, Nat.blt_eq, beq_iff_eq,
    Bool.not_eq_true'] at h1 h2 ⊢
  rcases h1 with h1 | ⟨h1e, h1s⟩ <;> rcases h2 with h2 | ⟨h2e, h2s⟩
  · left; omega
  · left; omega
  · left; omega
  · right
    refine ⟨by omega, ?_⟩
    cases hca : strLtb c.1 a.1 with
    | false => rfl
    | true =>
        exfalso
        cases hab : strLtb a.1 b.1 with
        | true =>
            have hcb := strLtb_trans hca hab
            rw [h2s] at hcb
            cases hcb
        | false =>
            have heqab : a.1 = b.1 := strLtb_eq_of_not hab h1s
            rw [heqab] at hca
            rw [h2s] at hca
            cases hca

/-- Insertion permutes to consing. -/
theorem ordIns_perm (le : α → α → Bool) (a : α) :
    ∀ l : List α, List.Perm (ordIns le a l) (a :: l) := by
  intro l
  induction l with
  | nil => exact List.Perm.refl _
  | cons b l ih =>
      unfold ordIns
      by_cases hab : le a b = true
      · rw [if_pos hab]
      · rw [if_neg hab]
        exact (ih.cons b).trans (List.Perm.swap a b l)

/-- The stable sort permutes its input. -/
theorem stableSort_perm (le : α → α → Bool) :
    ∀ l : List α, List.Perm (stableSort le l) l := by
  intro l
  induction l with
  | nil => exact List.Perm.refl _
  | cons a l ih =>
      exact (ordIns_perm le a (stableSort le l)).trans (ih.cons a)

/-- Membership after insertion. -/
theorem mem_ordIns (le : α → α → Bool) (a x : α) (l : List α) :
    x ∈ ordIns le a l ↔ x = a ∨ x ∈ l := by
  rw [(ordIns_perm le a l).mem_iff]
  exact List.mem_cons

/-- Insertion into a `le`-pairwise list stays pairwise, given a total and
transitive preorder. -/
theorem pairwise_ordIns (le : α → α → Bool)
    (htot : ∀ a b, le a b = true ∨ le b a = true)
    (htrans : ∀ a b c, le a b = true → le b c = true → le a c = true)
    (a : α) (l : List α) (h : List.Pairwise (fun x y => le x y = true) l) :
    List.Pairwise (fun x y => le x y = true) (ordIns le a l) := by
  induction l with
  | nil => exact List.pairwise_singleton _ a
  | cons b l ih =>
      rcases List.pairwise_cons.mp h with ⟨hb, hl⟩
      unfold ordIns
      by_cases hab : le a b = true
      · rw [if_pos hab]
        refine List.pairwise_cons.mpr ⟨?_, h⟩
        intro x hx
        rcases List.mem_cons.mp hx with hx | hx
        · rw [hx]; exact hab
        · exact htrans a b x hab (hb x hx)
      · rw [if_neg hab]
        refine List.pairwise_cons.mpr ⟨?_, ih hl⟩
        intro x hx
        rcases (mem_ordIns le a x l).mp hx with hx | hx
        · rw [hx]
          rcases htot a b with hh | hh
          · exact absurd hh hab
          · exact hh
        · exact hb x hx

/-- The stable sort produces a `le`-pairwise list for a total and transitive
preorder. -/
theorem pairwise_stableSort (le : α → α → Bool)
    (htot : ∀ a b, le a b = true ∨ le b a = true)
    (htrans : ∀ a b c, le a b = true → le b c = true → le a c = true) :
    ∀ l : List α, List.Pairwise (fun x y => le x y = true) (stableSort le l) := by
  intro l
  induction l with
  | nil => exact List.Pairwise.nil
  | cons a l ih => exact pairwise_ordIns le htot htrans a (stableSort le l) ih

/-- The decoration step preserves the keys in order. -/
theorem asNodeItems_keys :
    ∀ (d : Dict) (its : List (String × Dict)), asNodeItems d = some its →
      its.map Prod.fst = d.map Prod.fst := by
  intro d
  induction d with
  | nil =>
      intro its h
      simp [asNodeItems] at h
      rw [h]
      rfl
  | cons p rest ih =>
      intro its h
      obtain ⟨k, v⟩ := p
      cases v with
      | vStr s => simp [asNodeItems] at h
      | vNat n => simp [asNodeItems] at h
      | vNode m =>
          unfold asNodeItems at h
          rcases Option.map_eq_some'.mp h with ⟨its', hits', hout⟩
          rw [← hout]
          simp [ih its' hits']

/-- A preorder paired with key distinctness yields the claimed strict
sibling order. -/
theorem itemLE_and_ne_imp {a b : String × Dict} (hle : itemLE a b = true)
    (hne : a.1 ≠ b.1) : sibBefore a b := by
  unfold itemLE at hle
  simp only [Bool.or_eq_true, Bool.and_eq_true, Nat.blt_eq, beq_iff_eq,
    Bool.not_eq_true'] at hle
  rcases hle with hle | ⟨hre, hrs⟩
  · exact Or.inl hle
  · refine Or.inr ⟨hre, ?_⟩
    cases hab : strLtb a.1 b.1 with
    | true => rfl
    | false => exact absurd (strLtb_eq_of_not hab hrs) hne

/-- The lines of the processed items appear, in item order, within the
emitted line sequence. -/
theorem renderItems_sublist (recur : Dict → String → Option (List String)) :
    ∀ (items : List (String × Dict)) (pre : String) (out : List String),
      renderItems recur items pre = some out →
      List.Sublist (items.map (fun kv => lineFor pre kv.1 kv.2)) out := by
  intro items
  induction items with
  | nil =>
      intro pre out h
      simp [renderItems] at h
      rw [h]
      exact List.Sublist.refl _
  | cons km rest ih =>
      obtain ⟨k, m⟩ := km
      intro pre out h
      unfold renderItems at h
      split at h
      · -- folder/zip branch: case on the children and the recursion result
        split at h
        · rcases Option.map_eq_some'.mp h with ⟨rl, hrl, hout⟩
          rw [← hout]
          simp only [List.map_cons]
          exact List.cons_sublist_cons.mpr (ih pre rl hrl)
        · split at h
          · cases h
          · rcases Option.map_eq_some'.mp h with ⟨rl, hrl, hout⟩
            rw [← hout]
            simp only [List.map_cons]
            exact List.cons_sublist_cons.mpr
              ((ih pre rl hrl).trans (List.sublist_append_right _ rl))
      · rcases Option.map_eq_some'.mp h with ⟨rl, hrl, hout⟩
        rw [← hout]
        simp only [List.map_cons]
        exact List.cons_sublist_cons.mpr (ih pre rl hrl)

/-- C1: at every rendered level the sibling items, after the renderer's
sort, are pairwise in the claimed order — strictly smaller rank first
(folder/zip nodes are rank 0, all others rank 1), ties at equal rank broken
by strictly ascending raw structural key string — and the emitted line
sequence contains the sorted items' lines in exactly that order. -/
theorem C1_sibling_order (data : Dict) (its : List (String × Dict))
    (hits : asNodeItems data = some its)
    (hnd : (data.map Prod.fst).Nodup) :
    List.Pairwise sibBefore (stableSort itemLE its) ∧
    ∀ (f : Nat) (pre : String) (out : List String),
      tree_to_strings (f + 1) data pre = some out →
      List.Sublist ((stableSort itemLE its).map
        (fun kv => lineFor pre kv.1 kv.2)) out := by
  have hsorted := pairwise_stableSort itemLE itemLE_total itemLE_trans its
  have hknd : (its.map Prod.fst).Nodup := by
    rw [asNodeItems_keys data its hits]
    exact hnd
  have hpairsne : List.Pairwise (fun x y : String × Dict => x.1 ≠ y.1) its :=
    List.pairwise_map.mp hknd
  have hperm := stableSort_perm itemLE its
  have hsymm : ∀ {x y : String × Dict}, x.1 ≠ y.1 → y.1 ≠ x.1 :=
    fun h => Ne.symm h
  have hsne : List.Pairwise (fun x y : String × Dict => x.1 ≠ y.1)
      (stableSort itemLE its) :=
    ((hperm.pairwise_iff hsymm).mpr hpairsne)
  constructor
  · exact (hsorted.and hsne).imp (fun h => itemLE_and_ne_imp h.1 h.2)
  · intro f pre out h
    unfold tree_to_strings at h
    rw [hits] at h
    exact renderItems_sublist (tree_to_strings f) (stableSort itemLE its)
      pre out h

/-- Witness for C1 at a concrete mapping whose display names sort opposite
to ranks and keys: the folder node precedes the file node and the emitted
lines follow the sorted order. -/
theorem C1_sibling_order_witness :
    List.Pairwise sibBefore (stableSort itemLE
      [("fol_b.txt", metaNode "b.txt" "file" "b.txt" 5 "2024-05-06 07:08:09"),
       ("dir_a", metaNode "a" "folder" "a" 0 "bad")]) ∧
    List.Sublist ((stableSort itemLE
      [("fol_b.txt", metaNode "b.txt" "file" "b.txt" 5 "2024-05-06 07:08:09"),
       ("dir_a", metaNode "a" "folder" "a" 0 "bad")]).map
        (fun kv => lineFor "" kv.1 kv.2))
      ["       a (folder/0 bytes/bad)",
       "       b.txt (file/5 bytes/06.05.2024 07:08)"] := by
  have h := C1_sibling_order
    [("fol_b.txt", .vNode (metaNode "b.txt" "file" "b.txt" 5 "2024-05-06 07:08:09")),
     ("dir_a", .vNode (metaNode "a" "folder" "a" 0 "bad"))]
    [("fol_b.txt", metaNode "b.txt" "file" "b.txt" 5 "2024-05-06 07:08:09"),
     ("dir_a", metaNode "a" "folder" "a" 0 "bad")]
    rfl (by decide)
  exact ⟨h.1, h.2 4 ""
    ["       a (folder/0 bytes/bad)",
     "       b.txt (file/5 bytes/06.05.2024 07:08)"] rfl⟩

/-- A successful lookup locates a member. -/
theorem dictGet_mem : ∀ (d : Dict) (k : String) (v : Value),
    dictGet d k = some v → (k, v) ∈ d := by
  intro d
  induction d with
  | nil => intro k v h; cases h
  | cons p rest ih =>
      intro k v h
      unfold dictGet at h
      split at h
      · rename_i heq
        cases h
        exact List.mem_cons.mpr (Or.inl (by rw [← heq]))
      · exact List.mem_cons.mpr (Or.inr (ih k v h))

/-- Member values of a well-formed dict are well-formed. -/
theorem wf_of_mem : ∀ (d : Dict) (k : String) (v : Value),
    wfMembers d = true → (k, v) ∈ d → wfVal v = true := by
  intro d
  induction d with
  | nil => intro k v _ h; cases h
  | cons p rest ih =>
      intro k v hwf h
      simp only [wfMembers, Bool.and_eq_true] at hwf
      rcases List.mem_cons.mp h with h | h
      · rw [← h] at hwf
        exact hwf.1.2
      · exact ih k v hwf.2 h

/-- Members of a good mapping are good entries. -/
theorem good_of_mem : ∀ (d : Dict) (k : String) (v : Value),
    goodMembers d = true → (k, v) ∈ d → goodEntry k v = true := by
  intro d
  induction d with
  | nil => intro k v _ h; cases h
  | cons p rest ih =>
      intro k v hg h
      simp only [goodMembers, Bool.and_eq_true] at hg
      rcases List.mem_cons.mp h with h | h
      · rw [← h] at hg
        exact hg.1
      · exact ih k v hg.2 h

/-- Key membership after assignment. -/
theorem keyMem_dictSet : ∀ (d : Dict) (k : String) (v : Value) (q : String),
    keyMem q (dictSet d k v) = (keyMem q d || k == q) := by
  intro d
  induction d with
  | nil => intro k v q; simp [dictSet, keyMem]
  | cons p rest ih =>
      intro k v q
      unfold dictSet
      split
      · rename_i heq
        simp only [keyMem, List.any_cons]
        rw [heq]
        cases hpq : (k == q) <;> simp [hpq]
      · simp only [keyMem, List.any_cons] at ih ⊢
        rw [ih k v q]
        cases hp : (p.1 == q) <;> cases hk : (k == q) <;> simp [hp, hk]

/-- Assignment preserves well-formedness when the value is well-formed. -/
theorem wfMembers_dictSet : ∀ (d : Dict) (k : String) (v : Value),
    wfMembers d = true → wfVal v = true → wfMembers (dictSet d k v) = true := by
  intro d
  induction d with
  | nil => intro k v _ hv; simp [dictSet, wfMembers, keyMem, hv]
  | cons p rest ih =>
      intro k v hd hv
      simp only [wfMembers, Bool.and_eq_true] at hd
      unfold dictSet
      split
      · rename_i heq
        simp only [wfMembers, Bool.and_eq_true]
        exact ⟨⟨hd.1.1, hv⟩, hd.2⟩
      · rename_i hne
        simp only [wfMembers, Bool.and_eq_true]
        refine ⟨⟨?_, hd.1.2⟩, ih k v hd.2 hv⟩
        rw [keyMem_dictSet rest k v p.1]
        have hk : (k == p.1) = false := by
          cases hkk : (k == p.1) with
          | false => rfl
          | true => exact absurd (eq_of_beq hkk).symm hne
        rw [hk]
        simp only [Bool.or_false]
        exact hd.1.1

/-- Assignment preserves goodness when the entry is good. -/
theorem goodMembers_dictSet : ∀ (d : Dict) (k : String) (v : Value),
    goodMembers d = true → goodEntry k v = true →
    goodMembers (dictSet d k v) = true := by
  intro d
  induction d with
  | nil => intro k v _ he; simp [dictSet, goodMembers, he]
  | cons p rest ih =>
      intro k v hd he
      simp only [goodMembers, Bool.and_eq_true] at hd
      unfold dictSet
      split
      · rename_i heq
        simp only [goodMembers, Bool.and_eq_true]
        constructor
        · rw [heq]
          exact he
        · exact hd.2
      · simp only [goodMembers, Bool.and_eq_true]
        exact ⟨hd.1, ih k v hd.2 he⟩

/-- Assignment does not change other keys' values. -/
theorem dictGet_dictSet_ne : ∀ (d : Dict) (k : String) (v : Value)
    (q : String), q ≠ k → dictGet (dictSet d k v) q = dictGet d q := by
  intro d
  induction d with
  | nil =>
      intro k v q hq
      show dictGet [(k, v)] q = dictGet [] q
      unfold dictGet
      rw [if_neg (fun hc => hq hc.symm)]
      rfl
  | cons p rest ih =>
      intro k v q hq
      unfold dictSet
      split
      · rename_i heq
        show dictGet ((p.1, v) :: rest) q = dictGet (p :: rest) q
        unfold dictGet
        rw [if_neg (fun (hc : p.1 = q) => hq (hc ▸ heq)),
          if_neg (fun (hc : p.1 = q) => hq (hc ▸ heq))]
      · show dictGet (p :: dictSet rest k v) q = dictGet (p :: rest) q
        unfold dictGet
        split
        · rfl
        · exact ih k v q hq

/-- Every string starts with any of its literal prefixes. -/
theorem strStarts_append (pre s : String) : strStarts pre (pre ++ s) = true := by
  unfold strStarts
  rw [String.data_append]
  exact List.isPrefixOf_iff_prefix.mpr (List.prefix_append _ _)

/-- A key carrying one of the three child prefixes is not a metadata field
name. -/
theorem metaKeyB_of_prefixed {q : String}
    (h : strStarts "dir_" q = true ∨ strStarts "zip_" q = true ∨
      strStarts "fol_" q = true) : metaKeyB q = false := by
  have hdata : ∃ c t, q.data = c :: t ∧ (c = 'd' ∨ c = 'z' ∨ c = 'f') := by
    rcases h with h | h | h <;>
      · rcases List.isPrefixOf_iff_prefix.mp h with ⟨t, ht⟩
        rw [← ht]
        exact ⟨_, _, rfl, by simp⟩
  obtain ⟨c, t, hq, hc⟩ := hdata
  have hne : ∀ s : String, s.data.head? ≠ some c → (q == s) = false := by
    intro s hs
    cases hqs : (q == s) with
    | false => rfl
    | true =>
        exfalso
        apply hs
        rw [← eq_of_beq hqs, hq]
        rfl
  unfold metaKeyB
  rw [hne "name" (by rcases hc with h | h | h <;> simp [h]),
    hne "type" (by rcases hc with h | h | h <;> simp [h]),
    hne "path" (by rcases hc with h | h | h <;> simp [h]),
    hne "size" (by rcases hc with h | h | h <;> simp [h]),
    hne "modif_date" (by rcases hc with h | h | h <;> simp [h])]
  rfl

/-- The metadata base of a created node is a good mapping. -/
theorem metaNode_good (nm ty pth : String) (sz : Nat) (md : String) :
    goodMembers (metaNode nm ty pth sz md) = true := by
  simp [metaNode, goodMembers, goodEntry, metaKeyB]

/-- The metadata base of a created node is well-formed. -/
theorem metaNode_wf (nm ty pth : String) (sz : Nat) (md : String) :
    wfMembers (metaNode nm ty pth sz md) = true := by
  simp [metaNode, wfMembers, wfVal, keyMem]

/-- The stored `type` field of a created node. -/
theorem metaNode_type (nm ty pth : String) (sz : Nat) (md : String) :
    dictGet (metaNode nm ty pth sz md) "type" = some (.vStr ty) := rfl

/-- The builder's combined state invariant: every entry is metadata or a
prefix-tagged child (recursively), and keys are pairwise distinct
(recursively). -/
def TreeInv (d : Dict) : Prop := goodMembers d = true ∧ wfMembers d = true

/-- Metadata bases satisfy the invariant. -/
theorem metaNode_inv (nm ty pth : String) (sz : Nat) (md : String) :
    TreeInv (metaNode nm ty pth sz md) :=
  ⟨metaNode_good nm ty pth sz md, metaNode_wf nm ty pth sz md⟩

/-- The intermediate-node walk plus assignment preserves the invariant and
leaves every metadata field of the mapping unchanged, provided the walked
keys are `dir_`-prefixed and the assigned entry is a good, well-formed
child. -/
theorem setPath_inv : ∀ (dirs : List String) (st : Dict) (k : String)
    (v : Value) (st' : Dict),
    setPath st dirs k v = some st' →
    (∀ q ∈ dirs, strStarts "dir_" q = true) →
    metaKeyB k = false →
    goodEntry k v = true → wfVal v = true →
    TreeInv st →
    TreeInv st' ∧ ∀ q, metaKeyB q = true → dictGet st' q = dictGet st q := by
  intro dirs
  induction dirs with
  | nil =>
      intro st k v st' hset _ hkm hge hwv hinv
      simp only [setPath, Option.some.injEq] at hset
      rw [← hset]
      refine ⟨⟨goodMembers_dictSet st k v hinv.1 hge,
        wfMembers_dictSet st k v hinv.2 hwv⟩, ?_⟩
      intro q hq
      apply dictGet_dictSet_ne
      intro hqk
      rw [hqk, hkm] at hq
      cases hq
  | cons p rest ih =>
      intro st k v st' hset hdirs hkm hge hwv hinv
      unfold setPath at hset
      split at hset
      · rename_i sub hsub
        rcases Option.map_eq_some'.mp hset with ⟨sub', hsub', hst'⟩
        have hpmem := dictGet_mem st p (.vNode sub) hsub
        have hpgood := good_of_mem st p (.vNode sub) hinv.1 hpmem
        have hpwf := wf_of_mem st p (.vNode sub) hinv.2 hpmem
        have hpfx : strStarts "dir_" p = true :=
          hdirs p (List.mem_cons_self p rest)
        have hpkm : metaKeyB p = false := metaKeyB_of_prefixed (Or.inl hpfx)
        have hgp : keyTagOk p sub = true ∧ goodMembers sub = true := by
          rw [goodEntry, hpkm] at hpgood
          simpa using hpgood
        have hsubwf : wfMembers sub = true := by
          simpa [wfVal] using hpwf
        have hrec := ih sub k v sub' hsub'
          (fun q hq => hdirs q (List.mem_cons_of_mem p hq))
          hkm hge hwv (⟨hgp.2, hsubwf⟩ : TreeInv sub)
        have htype : dictGet sub' "type" = dictGet sub "type" :=
          hrec.2 "type" rfl
        have htag : keyTagOk p sub' = true := by
          unfold keyTagOk typeIs at hgp ⊢
          rw [htype]
          exact hgp.1
        have hge' : goodEntry p (.vNode sub') = true := by
          rw [goodEntry, hpkm]
          simp [htag, hrec.1.1]
        rw [← hst']
        refine ⟨⟨goodMembers_dictSet st p (.vNode sub') hinv.1 hge',
          wfMembers_dictSet st p (.vNode sub') hinv.2
            (by simpa [wfVal] using hrec.1.2)⟩, ?_⟩
        intro q hq
        apply dictGet_dictSet_ne
        intro hqp
        rw [hqp, hpkm] at hq
        cases hq
      · cases hset

/-- Walked intermediate keys are `dir_`-prefixed by construction. -/
theorem dirs_prefixed (parts : List String) :
    ∀ q ∈ parts.dropLast.map (fun p => "dir_" ++ p),
      strStarts "dir_" q = true := by
  intro q hq
  rcases List.mem_map.mp hq with ⟨p, _, hpq⟩
  rw [← hpq]
  exact strStarts_append "dir_" p

/-- A freshly created folder/file node is a good, well-formed child under
its prefixed key. -/
theorem goodEntry_metaNode (pre ty part pth : String) (sz : Nat) (md : String)
    (hpre : pre = "dir_" ∨ pre = "zip_" ∨ pre = "fol_")
    (hty : (pre = "dir_" → ty = "folder") ∧ (pre = "zip_" → ty = "zip") ∧
      (pre = "fol_" → ty = "file")) :
    metaKeyB (pre ++ part) = false ∧
    goodEntry (pre ++ part) (.vNode (metaNode part ty pth sz md)) = true ∧
    wfVal (.vNode (metaNode part ty pth sz md)) = true := by
  have hkm : metaKeyB (pre ++ part) = false := by
    apply metaKeyB_of_prefixed
    rcases hpre with h | h | h <;> rw [h]
    · exact Or.inl (strStarts_append _ part)
    · exact Or.inr (Or.inl (strStarts_append _ part))
    · exact Or.inr (Or.inr (strStarts_append _ part))
  refine ⟨hkm, ?_, by simp [wfVal, metaNode_wf]⟩
  rw [goodEntry, hkm]
  have htag : keyTagOk (pre ++ part) (metaNode part ty pth sz md) = true := by
    unfold keyTagOk typeIs
    rw [metaNode_type]
    rcases hpre with h | h | h <;> rw [h]
    · simp [valueIsStr, hty.1 h, strStarts_append]
    · simp [valueIsStr, hty.2.1 h, strStarts_append]
    · simp [valueIsStr, hty.2.2 h, strStarts_append]
  simp [htag, metaNode_good]

/-- The archive walker preserves the invariant and the metadata fields of
the mapping it extends, at every fuel level. -/
theorem zip_tree_inv : ∀ (f : Nat) (entries : List ZEntry) (st st' : Dict),
    zip_tree f entries st = some st' → TreeInv st →
    TreeInv st' ∧ ∀ q, metaKeyB q = true → dictGet st' q = dictGet st q := by
  intro f
  induction f with
  | zero => intro entries st st' h; cases h
  | succ f ih =>
      have hstep : ∀ (all : List ZEntry) (st : Dict) (e : ZEntry) (st' : Dict),
          zipStep (zip_tree f) all st e = some st' → TreeInv st →
          TreeInv st' ∧ ∀ q, metaKeyB q = true →
            dictGet st' q = dictGet st q := by
        intro all st e st' h hinv
        unfold zipStep at h
        split at h
        · cases h
        · rename_i part hlast
          split at h
          · -- directory member
            obtain ⟨hkm, hge, hwv⟩ := goodEntry_metaNode "dir_" "folder" part
              (pathStr (pathParts e.filename)) e.fileSize e.dateTime
              (Or.inl rfl) (by simp)
            exact setPath_inv _ st _ _ st' h
              (dirs_prefixed (pathParts e.filename)) hkm hge hwv hinv
          · split at h
            · -- nested archive member
              split at h
              · cases h
              · rename_i inner hread
                split at h
                · cases h
                · rename_i sub hsub
                  have hrec := ih inner _ sub hsub
                    (metaNode_inv part "zip" (pathStr (pathParts e.filename))
                      e.fileSize e.dateTime)
                  have htype : dictGet sub "type" = some (.vStr "zip") := by
                    rw [hrec.2 "type" rfl]
                    exact metaNode_type part "zip" _ e.fileSize e.dateTime
                  have hkm : metaKeyB ("zip_" ++ part) = false :=
                    metaKeyB_of_prefixed
                      (Or.inr (Or.inl (strStarts_append "zip_" part)))
                  have hge : goodEntry ("zip_" ++ part) (.vNode sub) = true := by
                    rw [goodEntry, hkm]
                    have htag : keyTagOk ("zip_" ++ part) sub = true := by
                      unfold keyTagOk typeIs
                      rw [htype]
                      simp [valueIsStr, strStarts_append]
                    simp [htag, hrec.1.1]
                  exact setPath_inv _ st _ _ st' h
                    (dirs_prefixed (pathParts e.filename)) hkm hge
                    (by simp [wfVal, hrec.1.2]) hinv
            · -- plain file member
              obtain ⟨hkm, hge, hwv⟩ := goodEntry_metaNode "fol_" "file" part
                (pathStr (pathParts e.filename)) e.fileSize e.dateTime
                (Or.inr (Or.inr rfl)) (by simp)
              exact setPath_inv _ st _ _ st' h
                (dirs_prefixed (pathParts e.filename)) hkm hge hwv hinv
      intro entries st st' h hinv
      unfold zip_tree at h
      -- fold over the member list
      suffices hfold : ∀ (es : List ZEntry) (st st' : Dict),
          zipFold (zip_tree f) entries es st = some st' → TreeInv st →
          TreeInv st' ∧ ∀ q, metaKeyB q = true →
            dictGet st' q = dictGet st q by
        exact hfold entries st st' h hinv
      intro es
      induction es with
      | nil =>
          intro st st' h hinv
          simp only [zipFold, Option.some.injEq] at h
          rw [← h]
          exact ⟨hinv, fun q _ => rfl⟩
      | cons e rest ihes =>
          intro st st' h hinv
          unfold zipFold at h
          split at h
          · cases h
          · rename_i st1 hst1
            have h1 := hstep entries st e st1 hst1 hinv
            have h2 := ihes st1 st' h h1.1
            exact ⟨h2.1, fun q hq => (h2.2 q hq).trans (h1.2 q hq)⟩

/-- One filesystem-entry step preserves the invariant and the metadata
fields. -/
theorem folderStep_inv : ∀ (f : Nat) (st : Dict) (e : FSEntry) (st' : Dict),
    folderStep f st e = some st' → TreeInv st →
    TreeInv st' ∧ ∀ q, metaKeyB q = true → dictGet st' q = dictGet st q := by
  intro f st e st' h hinv
  unfold folderStep at h
  split at h
  · cases h
  · rename_i part hlast
    split at h
    · obtain ⟨hkm, hge, hwv⟩ := goodEntry_metaNode "dir_" "folder" part
        (pathStr e.relParts) e.size e.mtime (Or.inl rfl) (by simp)
      exact setPath_inv _ st _ _ st' h (dirs_prefixed e.relParts) hkm hge
        hwv hinv
    · split at h
      · split at h
        · cases h
        · rename_i sub hsub
          have hrec := zip_tree_inv f e.zipContent _ sub hsub
            (metaNode_inv part "zip" (pathStr e.relParts) e.size e.mtime)
          have htype : dictGet sub "type" = some (.vStr "zip") := by
            rw [hrec.2 "type" rfl]
            exact metaNode_type part "zip" _ e.size e.mtime
          have hkm : metaKeyB ("zip_" ++ part) = false :=
            metaKeyB_of_prefixed
              (Or.inr (Or.inl (strStarts_append "zip_" part)))
          have hge : goodEntry ("zip_" ++ part) (.vNode sub) = true := by
            rw [goodEntry, hkm]
            have htag : keyTagOk ("zip_" ++ part) sub = true := by
              unfold keyTagOk typeIs
              rw [htype]
              simp [valueIsStr, strStarts_append]
            simp [htag, hrec.1.1]
          exact setPath_inv _ st _ _ st' h (dirs_prefixed e.relParts) hkm
            hge (by simp [wfVal, hrec.1.2]) hinv
      · obtain ⟨hkm, hge, hwv⟩ := goodEntry_metaNode "fol_" "file" part
          (pathStr e.relParts) e.size e.mtime (Or.inr (Or.inr rfl)) (by simp)
        exact setPath_inv _ st _ _ st' h (dirs_prefixed e.relParts) hkm hge
          hwv hinv

/-- The walk loop preserves the invariant. -/
theorem fsFold_inv : ∀ (f : Nat) (es : List FSEntry) (st st' : Dict),
    fsFold f es st = some st' → TreeInv st → TreeInv st' := by
  intro f es
  induction es with
  | nil =>
      intro st st' h hinv
      simp only [fsFold, Option.some.injEq] at h
      rw [← h]
      exact hinv
  | cons e rest ih =>
      intro st st' h hinv
      unfold fsFold at h
      split at h
      · cases h
      · rename_i st1 hst1
        exact ih st1 st' h (folderStep_inv f st e st1 hst1 hinv).1

/-- The empty mapping satisfies the invariant. -/
theorem TreeInv_nil : TreeInv [] :=
  ⟨by simp [goodMembers], by simp [wfMembers]⟩

/-- Every tree `scan` returns satisfies the builder invariant. -/
theorem scan_inv (f : Nat) (pathName : String) (p : RootPath) (d : Dict)
    (h : scan f pathName p = PyOutcome.ok d) : TreeInv d := by
  unfold scan at h
  split at h
  · cases h
  · cases hft : folder_tree f p.listing with
    | none =>
        rw [hft] at h
        cases h
    | some d2 =>
        rw [hft] at h
        simp only [] at h
        cases h
        unfold folder_tree at hft
        exact fsFold_inv f p.listing [] _ hft TreeInv_nil

/-- C10: every tree the builder returns satisfies `goodMembers`: each entry
at every level is either one of the five metadata fields or a child whose
key carries the `dir_`/`zip_`/`fol_` prefix agreeing with its stored `type`
(`folder`/`zip`/`file`); and any prefixed child key is distinct from every
metadata field name, so the renderer's metadata-exclusion filter keeps the
child. -/
theorem C10_child_key_prefixes (f : Nat) (pathName : String) (p : RootPath)
    (d : Dict) :
    (scan f pathName p = PyOutcome.ok d → goodMembers d = true) ∧
    (∀ (m : Dict) (k : String) (v : Value), (k, v) ∈ m →
      (strStarts "dir_" k = true ∨ strStarts "zip_" k = true ∨
        strStarts "fol_" k = true) →
      metaKeyB k = false ∧ (k, v) ∈ nestedData m) := by
  constructor
  · intro h
    exact (scan_inv f pathName p d h).1
  · intro m k v hmem hpre
    have hkm := metaKeyB_of_prefixed hpre
    refine ⟨hkm, ?_⟩
    unfold nestedData
    refine List.mem_filter.mpr ⟨hmem, ?_⟩
    rw [hkm]
    rfl

/-- Witness for C10: the invariant holds on a concretely scanned tree, and
a concrete prefixed child key survives the renderer's filter. -/
theorem C10_child_key_prefixes_witness :
    goodMembers [("fol_a.txt",
      Value.vNode (metaNode "a.txt" "file" "a.txt" 5 "t"))] = true ∧
    (metaKeyB "dir_a" = false ∧
      ("dir_a", Value.vNode []) ∈
        nestedData [("name", Value.vStr "n"), ("dir_a", Value.vNode [])]) := by
  constructor
  · exact (C10_child_key_prefixes 1 "r"
      ⟨true, true, [⟨["a.txt"], false, 5, "t", []⟩]⟩
      [("fol_a.txt", Value.vNode (metaNode "a.txt" "file" "a.txt" 5 "t"))]).1
      rfl
  · exact (C10_child_key_prefixes 1 "r"
      ⟨true, true, [⟨["a.txt"], false, 5, "t", []⟩]⟩
      [("fol_a.txt", Value.vNode (metaNode "a.txt" "file" "a.txt" 5 "t"))]).2
      [("name", Value.vStr "n"), ("dir_a", Value.vNode [])]
      "dir_a" (Value.vNode [])
      (List.mem_cons_of_mem _ (List.mem_cons_self _ _))
      (Or.inl (by decide))

/-- Digits are not JSON whitespace. -/
theorem isDig_not_ws {c : Char} (h : isDig c = true) : isWsJson c = false := by
  unfold isWsJson
  have h1 : c ≠ ' ' := by intro he; rw [he] at h; cases h
  have h2 : c ≠ '\t' := by intro he; rw [he] at h; cases h
  have h3 : c ≠ '\n' := by intro he; rw [he] at h; cases h
  have h4 : c ≠ '\r' := by intro he; rw [he] at h; cases h
  simp [h1, h2, h3, h4]

/-- Digits are not an opening brace. -/
theorem isDig_ne_brace {c : Char} (h : isDig c = true) : c ≠ '\x7b' := by
  intro he
  rw [he] at h
  cases h

/-- Digits are not a quote. -/
theorem isDig_ne_quote {c : Char} (h : isDig c = true) : c ≠ '"' := by
  intro he
  rw [he] at h
  cases h

/-- Skipping whitespace passes over any number of blanks. -/
theorem skipWsJ_replicate (m : Nat) (cs : List Char) :
    skipWsJ (List.replicate m ' ' ++ cs) = skipWsJ cs := by
  induction m with
  | zero => rfl
  | succ m ih =>
      rw [List.replicate_succ, List.cons_append]
      show skipWsJ (' ' :: (List.replicate m ' ' ++ cs)) = skipWsJ cs
      unfold skipWsJ
      rw [List.dropWhile_cons_of_pos (by rfl)]
      exact ih

/-- Skipping whitespace passes over a newline. -/
theorem skipWsJ_newline (cs : List Char) : skipWsJ ('\n' :: cs) = skipWsJ cs := by
  unfold skipWsJ
  rw [List.dropWhile_cons_of_pos (by rfl)]

/-- Skipping whitespace stops at a non-blank. -/
theorem skipWsJ_stop {c : Char} (h : isWsJson c = false) (cs : List Char) :
    skipWsJ (c :: cs) = c :: cs := by
  unfold skipWsJ
  rw [List.dropWhile_cons_of_neg (by rw [h]; exact Bool.false_ne_true)]

/-- Skipping whitespace passes over the indentation string. -/
theorem skipWsJ_indent (lvl : Nat) (cs : List Char) :
    skipWsJ ((indentStr lvl).data ++ cs) = skipWsJ cs := by
  show skipWsJ (List.replicate (2 * lvl) ' ' ++ cs) = skipWsJ cs
  exact skipWsJ_replicate (2 * lvl) cs

/-- Fuel is interchangeable above the argument. -/
theorem natDigitsAux_fuel : ∀ (n f g : Nat), n ≤ f → n ≤ g →
    natDigitsAux f n = natDigitsAux g n := by
  intro n
  induction n using Nat.strong_induction_on with
  | _ n ih =>
      intro f g hf hg
      match n, f, g with
      | 0, f, g => cases f <;> cases g <;> rfl
      | n + 1, f + 1, g + 1 =>
          show natDigitsAux f ((n + 1) / 10) ++ _ =
            natDigitsAux g ((n + 1) / 10) ++ _
          rw [ih ((n + 1) / 10) (Nat.div_lt_self (Nat.succ_pos n) (by decide))
            f g (by omega) (by omega)]

/-- Unfolding equation of `natDigits` for a positive argument. -/
theorem natDigits_pos (n : Nat) (h : n ≠ 0) :
    natDigits n = natDigits (n / 10) ++ [Nat.digitChar (n % 10)] := by
  match n, h with
  | n + 1, _ =>
      show natDigitsAux (n + 1) (n + 1) = _
      show natDigitsAux n ((n + 1) / 10) ++ _ = _
      rw [natDigitsAux_fuel ((n + 1) / 10)
        n ((n + 1) / 10) (by omega) (le_refl _)]
      rfl

/-- Digit characters of digit values are decimal digits with the same
value. -/
theorem digitChar_digit : ∀ m, m < 10 →
    isDig (Nat.digitChar m) = true ∧ digVal (Nat.digitChar m) = m ∧
    (m ≠ 0 → Nat.digitChar m ≠ '0') := by decide

/-- The decimal digits of a positive number start with a nonzero digit. -/
theorem natDigits_head : ∀ n, n ≠ 0 → ∃ c t, natDigits n = c :: t ∧
    isDig c = true ∧ c ≠ '0' := by
  intro n
  induction n using Nat.strong_induction_on with
  | _ n ih =>
      intro hn
      rw [natDigits_pos n hn]
      by_cases h10 : n / 10 = 0
      · have hm : n % 10 ≠ 0 := by omega
        have hlt : n % 10 < 10 := Nat.mod_lt n (by decide)
        refine ⟨Nat.digitChar (n % 10), [], ?_, (digitChar_digit _ hlt).1,
          (digitChar_digit _ hlt).2.2 hm⟩
        rw [h10]
        rfl
      · obtain ⟨c, t, hct, hd, hz⟩ := ih (n / 10)
          (Nat.div_lt_self (Nat.pos_of_ne_zero hn) (by decide)) h10
        exact ⟨c, t ++ [Nat.digitChar (n % 10)], by rw [hct]; rfl, hd, hz⟩

/-- The number scanner absorbs a digit block, shifting the accumulator. -/
theorem parseNatLoop_digits : ∀ (n acc : Nat) (rest : List Char),
    parseNatLoop acc (natDigits n ++ rest) =
      parseNatLoop (acc * 10 ^ (natDigits n).length + n) rest := by
  intro n
  induction n using Nat.strong_induction_on with
  | _ n ih =>
      intro acc rest
      by_cases hn : n = 0
      · rw [hn]
        show parseNatLoop acc rest = parseNatLoop (acc * 10 ^ 0 + 0) rest
        rw [Nat.pow_zero, Nat.mul_one, Nat.add_zero]
      · rw [natDigits_pos n hn, List.append_assoc, List.cons_append,
          List.nil_append]
        rw [ih (n / 10) (Nat.div_lt_self (Nat.pos_of_ne_zero hn) (by decide))
          acc (Nat.digitChar (n % 10) :: rest)]
        have hlt : n % 10 < 10 := Nat.mod_lt n (by decide)
        have hd := digitChar_digit (n % 10) hlt
        have hstep : parseNatLoop
              (acc * 10 ^ (natDigits (n / 10)).length + n / 10)
              (Nat.digitChar (n % 10) :: rest) =
            parseNatLoop
              (10 * (acc * 10 ^ (natDigits (n / 10)).length + n / 10) + n % 10)
              rest := by
          simp only [parseNatLoop]
          rw [if_pos hd.1, hd.2.1]
        rw [hstep]
        simp only [List.length_append, List.length_cons, List.length_nil,
          Nat.zero_add]
        have hdm := Nat.div_add_mod n 10
        rw [show 10 * (acc * 10 ^ (natDigits (n / 10)).length + n / 10) +
              n % 10 =
            acc * 10 ^ ((natDigits (n / 10)).length + 1) + n from by
          rw [Nat.pow_succ, ← Nat.mul_assoc]
          omega]

/-- The number scanner stops before a non-digit. -/
theorem parseNatLoop_stop (acc : Nat) (rest : List Char)
    (h : ∀ c, rest.head? = some c → isDig c = false) :
    parseNatLoop acc rest = (acc, rest) := by
  cases rest with
  | nil => rfl
  | cons c cs =>
      unfold parseNatLoop
      rw [if_neg]
      rw [h c rfl]
      exact Bool.false_ne_true

/-- Round trip of the decimal printer through the JSON number scanner. -/
theorem parseNatJ_repr (n : Nat) (rest : List Char)
    (h : ∀ c, rest.head? = some c → isDig c = false) :
    parseNatJ ((natRepr n).data ++ rest) = some (n, rest) := by
  by_cases hn : n = 0
  · rw [hn]
    show parseNatJ ('0' :: rest) = some (0, rest)
    rfl
  · obtain ⟨c, t, hct, hd, hz⟩ := natDigits_head n hn
    have hdata : (natRepr n).data = natDigits n := by
      unfold natRepr
      rw [if_neg hn]
    rw [hdata, hct, List.cons_append]
    simp only [parseNatJ]
    rw [if_neg hz, if_pos hd]
    have hloop : parseNatLoop 0 ((c :: t) ++ rest) = (n, rest) := by
      rw [← hct, parseNatLoop_digits n 0 rest]
      rw [Nat.zero_mul, Nat.zero_add]
      exact parseNatLoop_stop n rest h
    rw [List.cons_append] at hloop
    simp only [parseNatLoop] at hloop
    rw [if_pos hd] at hloop
    rw [Nat.mul_zero, Nat.zero_add] at hloop
    rw [hloop]

/-- Hexadecimal digit characters decode to their values. -/
theorem hexVal_digitChar : ∀ m, m < 16 → hexVal (Nat.digitChar m) = some m := by
  decide

/-- Round trip of the writer's string escaping through the string-literal
scanner: the escaped characters followed by a closing quote parse back to
the original characters. -/
theorem parseStrLoop_flat : ∀ (cs rest : List Char),
    parseStrLoop (cs.flatMap jsonEscapeChar ++ '"' :: rest) =
      some (cs, rest) := by
  intro cs
  induction cs with
  | nil => intro rest; rfl
  | cons c cs ih =>
      intro rest
      rw [List.flatMap_cons, List.append_assoc]
      by_cases h1 : c = '"'
      · subst h1
        simp [jsonEscapeChar, parseStrLoop, escDecode, ih rest]
      · by_cases h2 : c = '\\'
        · subst h2
          simp [jsonEscapeChar, parseStrLoop, escDecode, ih rest]
        · by_cases h3 : c = '\x08'
          · subst h3
            simp [jsonEscapeChar, parseStrLoop, escDecode, ih rest]
          · by_cases h4 : c = '\x09'
            · subst h4
              simp [jsonEscapeChar, parseStrLoop, escDecode, ih rest]
            · by_cases h5 : c = '\x0a'
              · subst h5
                simp [jsonEscapeChar, parseStrLoop, escDecode, ih rest]
              · by_cases h6 : c = '\x0c'
                · subst h6
                  simp [jsonEscapeChar, parseStrLoop, escDecode, ih rest]
                · by_cases h7 : c = '\x0d'
                  · subst h7
                    simp [jsonEscapeChar, parseStrLoop, escDecode, ih rest]
                  · by_cases h8 : c.toNat < 0x20
                    · rw [show jsonEscapeChar c =
                          ['\\', 'u', '0', '0', Nat.digitChar (c.toNat / 16),
                            Nat.digitChar (c.toNat % 16)] from by
                        unfold jsonEscapeChar
                        rw [if_neg h1, if_neg h2, if_neg h3, if_neg h4,
                          if_neg h5, if_neg h6, if_neg h7, if_pos h8]]
                      have hdiv : c.toNat / 16 < 16 := by omega
                      have hmod : c.toNat % 16 < 16 := Nat.mod_lt _ (by decide)
                      have hn : ((0 * 16 + 0) * 16 + c.toNat / 16) * 16 +
                          c.toNat % 16 = c.toNat := by omega
                      have hns : ¬(55296 ≤ c.toNat) := by omega
                      simp only [parseStrLoop, List.cons_append,
                        List.nil_append, hexVal_digitChar _ hdiv,
                        hexVal_digitChar _ hmod,
                        show hexVal '0' = some 0 from rfl, ih rest,
                        Option.map_some']
                      rw [hn, if_neg (fun hand => hns hand.1),
                        Char.ofNat_toNat]
                      simp [ih rest]
                    · rw [show jsonEscapeChar c = [c] from by
                        unfold jsonEscapeChar
                        rw [if_neg h1, if_neg h2, if_neg h3, if_neg h4,
                          if_neg h5, if_neg h6, if_neg h7, if_neg h8]]
                      rw [List.cons_append, List.nil_append]
                      have hle : (c.toNat < 0x20) = False :=
                        eq_false (fun hc => h8 hc)
                      simp [parseStrLoop, h1, h2, hle, ih rest]

/-- Parser fuel requirements are positive. -/
theorem needV_pos : ∀ v : Value, 1 ≤ needV v := by
  intro v
  cases v with
  | vStr s => simp [needV]
  | vNat n => simp [needV]
  | vNode d =>
      cases d with
      | nil => simp [needV]
      | cons m ms =>
          obtain ⟨k, v⟩ := m
          simp [needV]

/-- Tail-member fuel bounds the member count. -/
theorem needMt_ge_len : ∀ ms : List (String × Value),
    ms.length + 1 ≤ needMt ms := by
  intro ms
  induction ms with
  | nil => simp [needMt]
  | cons m ms ih =>
      obtain ⟨k, v⟩ := m
      simp only [needMt, List.length_cons]
      have := Nat.le_max_right (needV v) (needMt ms)
      omega

/-- Tail-member fuel bounds each member value's fuel. -/
theorem needMt_value_le : ∀ (ms : List (String × Value)) (p : String × Value),
    p ∈ ms → needV p.2 + 1 ≤ needMt ms := by
  intro ms
  induction ms with
  | nil => intro p h; cases h
  | cons m ms ih =>
      intro p h
      obtain ⟨k, v⟩ := m
      rcases List.mem_cons.mp h with h | h
      · rw [h]
        simp only [needMt]
        have := Nat.le_max_left (needV v) (needMt ms)
        omega
      · have h1 := ih p h
        simp only [needMt]
        have := Nat.le_max_right (needV v) (needMt ms)
        omega

mutual
/-- The value fuel requirement is bounded by the printed length. -/
theorem needV_le_len : ∀ (lvl : Nat) (v : Value),
    needV v ≤ (dumpsV lvl v).data.length + 1
  | _, .vStr s => by simp [needV]
  | _, .vNat n => by simp [needV]
  | _, .vNode [] => by simp [needV, dumpsV]
  | lvl, .vNode ((k, v) :: ms) => by
      have h1 := needV_le_len (lvl + 1) v
      have h2 := needMt_le_len (lvl + 1) ms
      simp only [needV, dumpsV, String.data_append, List.length_append,
        List.length_cons, List.length_nil]
      rcases Nat.le_total (needV v) (needMt ms) with hm | hm
      · rw [Nat.max_eq_right hm]
        omega
      · rw [Nat.max_eq_left hm]
        omega

/-- The tail-member fuel requirement is bounded by the printed length. -/
theorem needMt_le_len : ∀ (lvl : Nat) (ms : List (String × Value)),
    needMt ms ≤ (dumpTail lvl ms).data.length + 1
  | _, [] => by simp [needMt]
  | lvl, (k, v) :: ms => by
      have h1 := needV_le_len lvl v
      have h2 := needMt_le_len lvl ms
      simp only [needMt, dumpTail, String.data_append, List.length_append,
        List.length_cons, List.length_nil]
      rcases Nat.le_total (needV v) (needMt ms) with hm | hm
      · rw [Nat.max_eq_right hm]
        omega
      · rw [Nat.max_eq_left hm]
        omega
end

/-- The decimal printout starts with a digit. -/
theorem natRepr_head : ∀ n : Nat, ∃ c t, (natRepr n).data = c :: t ∧
    isDig c = true := by
  intro n
  by_cases hn : n = 0
  · exact ⟨'0', [], by rw [hn]; rfl, by decide⟩
  · obtain ⟨c, t, hct, hd, _⟩ := natDigits_head n hn
    refine ⟨c, t, ?_, hd⟩
    unfold natRepr
    rw [if_neg hn]
    exact hct

/-- The quoted form of a string starts with a quote. -/
theorem jsonQuote_data (s : String) : (jsonQuote s).data =
    '"' :: (s.data.flatMap jsonEscapeChar ++ ['"']) := by
  unfold jsonQuote
  rw [String.data_append, String.data_append]
  rfl

/-- Every printed value starts with a non-whitespace character. -/
theorem dumpsV_head_nonws : ∀ (v : Value) (lvl : Nat), ∃ c t,
    (dumpsV lvl v).data = c :: t ∧ isWsJson c = false := by
  intro v lvl
  cases v with
  | vStr s =>
      refine ⟨'"', s.data.flatMap jsonEscapeChar ++ ['"'], ?_, by decide⟩
      simp [dumpsV, jsonQuote_data]
  | vNat n =>
      obtain ⟨c, t, hct, hd⟩ := natRepr_head n
      exact ⟨c, t, by simp [dumpsV, hct], isDig_not_ws hd⟩
  | vNode d =>
      cases d with
      | nil => exact ⟨'\x7b', ['\x7d'], rfl, by decide⟩
      | cons m ms =>
          obtain ⟨k, v⟩ := m
          rw [show dumpsV lvl (Value.vNode ((k, v) :: ms)) =
            "\x7b\n" ++ indentStr (lvl + 1) ++ jsonQuote k ++ ": " ++
              dumpsV (lvl + 1) v ++ dumpTail (lvl + 1) ms ++ "\n" ++
              indentStr lvl ++ "\x7d" from by simp [dumpsV]]
          exact ⟨'\x7b', _, rfl, by decide⟩

/-- The printed member tail followed by the closing newline never starts
with a digit. -/
theorem dumpTail_nondig : ∀ (ms : List (String × Value)) (lvl : Nat)
    (X : List Char) (c : Char),
    ((dumpTail lvl ms).data ++ '\n' :: X).head? = some c → isDig c = false := by
  intro ms lvl X c h
  cases ms with
  | nil =>
      simp only [dumpTail] at h
      simp only [List.nil_append] at h
      · cases h
        rfl
  | cons m ms =>
      obtain ⟨k, v⟩ := m
      simp only [dumpTail, String.data_append] at h
      simp only [List.cons_append, List.head?_cons, Option.some.injEq] at h
      rw [← h]
      rfl

/-- Skipping whitespace passes over a blank. -/
theorem skipWsJ_space (cs : List Char) : skipWsJ (' ' :: cs) = skipWsJ cs := by
  unfold skipWsJ
  rw [List.dropWhile_cons_of_pos (by rfl)]

/-- Absent keys, element-wise. -/
theorem keyMem_false_iff (k : String) (d : Dict) :
    keyMem k d = false ↔ ∀ p ∈ d, p.1 ≠ k := by
  simp [keyMem, List.any_eq_false, beq_iff_eq]

/-- Key membership distributes over append. -/
theorem keyMem_append (k : String) (a b : Dict) :
    keyMem k (a ++ b) = (keyMem k a || keyMem k b) := by
  simp [keyMem, List.any_append]

/-- Byte shape of a printed non-empty object followed by anything. -/
theorem dumpsV_cons_data (lvl : Nat) (k : String) (v : Value)
    (ms : List (String × Value)) (X : List Char) :
    (dumpsV lvl (.vNode ((k, v) :: ms))).data ++ X =
    '\x7b' :: '\n' :: ((indentStr (lvl + 1)).data ++
      ('"' :: (k.data.flatMap jsonEscapeChar ++
        ('"' :: ':' :: ' ' :: ((dumpsV (lvl + 1) v).data ++
          ((dumpTail (lvl + 1) ms).data ++
            '\n' :: ((indentStr lvl).data ++ '\x7d' :: X))))))) := by
  rw [show dumpsV lvl (Value.vNode ((k, v) :: ms)) =
    "\x7b\n" ++ indentStr (lvl + 1) ++ jsonQuote k ++ ": " ++
      dumpsV (lvl + 1) v ++ dumpTail (lvl + 1) ms ++ "\n" ++
      indentStr lvl ++ "\x7d" from by simp [dumpsV]]
  simp only [String.data_append, jsonQuote_data, List.append_assoc,
    List.cons_append, List.nil_append]

/-- Byte shape of a printed member tail followed by anything. -/
theorem dumpTail_cons_data (lvl : Nat) (k : String) (v : Value)
    (ms : List (String × Value)) (X : List Char) :
    (dumpTail lvl ((k, v) :: ms)).data ++ X =
    ',' :: '\n' :: ((indentStr lvl).data ++
      ('"' :: (k.data.flatMap jsonEscapeChar ++
        ('"' :: ':' :: ' ' :: ((dumpsV lvl v).data ++
          ((dumpTail lvl ms).data ++ X)))))) := by
  rw [show dumpTail lvl ((k, v) :: ms) =
    ",\n" ++ indentStr lvl ++ jsonQuote k ++ ": " ++ dumpsV lvl v ++
      dumpTail lvl ms from by simp [dumpTail]]
  simp only [String.data_append, jsonQuote_data, List.append_assoc,
    List.cons_append, List.nil_append]

/-- The member loop of the parser consumes the printed member tail and the
closing brace, accumulating exactly the printed members, provided the value
parser is correct at its fuel, the members are well-formed, fresh for the
accumulator, and sufficiently fueled. -/
theorem parseMoreMembers_dumps (f : Nat)
    (hV : ∀ (v : Value) (lvl : Nat) (rest : List Char), wfVal v = true →
      needV v ≤ f → (∀ c, rest.head? = some c → isDig c = false) →
      parseValueJ f ((dumpsV lvl v).data ++ rest) = some (v, rest)) :
    ∀ (ms : List (String × Value)) (lvl G : Nat) (acc : Dict)
      (rest : List Char),
      wfMembers ms = true →
      (∀ p ∈ ms, needV p.2 ≤ f) →
      ms.length + 1 ≤ G →
      (∀ p ∈ ms, keyMem p.1 acc = false) →
      (∀ c, rest.head? = some c → isDig c = false) →
      parseMoreMembers (parseValueJ f) G acc
        ((dumpTail (lvl + 1) ms).data ++
          '\n' :: ((indentStr lvl).data ++ '\x7d' :: rest)) =
      some (acc ++ ms, rest) := by
  intro ms
  induction ms with
  | nil =>
      intro lvl G acc rest _ _ hG _ _
      obtain ⟨G', rfl⟩ : ∃ G', G = G' + 1 := ⟨G - 1, by omega⟩
      rw [show (dumpTail (lvl + 1) ([] : List (String × Value))).data =
        ([] : List Char) from by simp [dumpTail]]
      rw [List.nil_append]
      simp only [parseMoreMembers]
      rw [skipWsJ_newline, skipWsJ_indent, skipWsJ_stop (by decide)]
      simp
  | cons m ms ih =>
      intro lvl G acc rest hwf hneedv hG hfresh hrest
      obtain ⟨k, v⟩ := m
      obtain ⟨G', rfl⟩ : ∃ G', G = G' + 1 :=
        ⟨G - 1, by simp at hG; omega⟩
      rw [dumpTail_cons_data]
      simp only [parseMoreMembers]
      rw [skipWsJ_stop (by decide)]
      simp only []
      rw [skipWsJ_newline, skipWsJ_indent, skipWsJ_stop (by decide)]
      simp only []
      rw [parseStrLoop_flat]
      simp only []
      rw [skipWsJ_stop (by decide)]
      simp only []
      have hwf' : (keyMem k ms = false ∧ wfVal v = true) ∧
          wfMembers ms = true := by
        simpa [wfMembers] using hwf
      obtain ⟨cv, tv, hctv, hcwv⟩ := dumpsV_head_nonws v (lvl + 1)
      rw [show skipWsJ (' ' :: ((dumpsV (lvl + 1) v).data ++
          ((dumpTail (lvl + 1) ms).data ++
            '\n' :: ((indentStr lvl).data ++ '\x7d' :: rest)))) =
          (dumpsV (lvl + 1) v).data ++
            ((dumpTail (lvl + 1) ms).data ++
              '\n' :: ((indentStr lvl).data ++ '\x7d' :: rest)) from by
        rw [skipWsJ_space, hctv, List.cons_append, skipWsJ_stop hcwv]]
      rw [hV v (lvl + 1) _ hwf'.1.2
        (hneedv (k, v) (List.mem_cons_self _ _))
        (dumpTail_nondig ms (lvl + 1) _)]
      simp only []
      have hsetacc : dictSet acc (⟨k.data⟩ : String) v = acc ++ [(k, v)] :=
        dictSet_fresh acc ⟨k.data⟩ v
          ((keyMem_false_iff k acc).mp (hfresh (k, v) (List.mem_cons_self _ _)))
      rw [hsetacc]
      rw [ih lvl G' (acc ++ [(k, v)]) rest hwf'.2
        (fun p hp => hneedv p (List.mem_cons_of_mem _ hp))
        (by simp at hG ⊢; omega)
        (fun p hp => by
          rw [keyMem_append]
          rw [(keyMem_false_iff p.1 acc).mpr
            (fun q hq => ((keyMem_false_iff p.1 acc).mp
              (hfresh p (List.mem_cons_of_mem _ hp)) q hq))]
          simp only [Bool.false_or, keyMem, List.any_cons, List.any_nil,
            Bool.or_false]
          cases hkp : (k == p.1) with
          | false => rfl
          | true =>
              exfalso
              exact ((keyMem_false_iff k ms).mp hwf'.1.1 p hp)
                (eq_of_beq hkp).symm)
        hrest]
      simp

/-- The value parser reads back exactly what the writer printed, for any
well-formed value, sufficient fuel and a non-digit continuation. -/
theorem parseValueJ_dumps : ∀ (F : Nat) (v : Value) (lvl : Nat)
    (rest : List Char), wfVal v = true → needV v ≤ F →
    (∀ c, rest.head? = some c → isDig c = false) →
    parseValueJ F ((dumpsV lvl v).data ++ rest) = some (v, rest) := by
  intro F
  induction F with
  | zero =>
      intro v _ _ _ hneed _
      have := needV_pos v
      omega
  | succ f ihF =>
      intro v lvl rest hwf hneed hrest
      cases v with
      | vStr s =>
          rw [show (dumpsV lvl (.vStr s)).data ++ rest =
              '"' :: (s.data.flatMap jsonEscapeChar ++ '"' :: rest) from by
            simp [dumpsV, jsonQuote_data, List.cons_append,
              List.append_assoc]]
          simp only [parseValueJ]
          rw [skipWsJ_stop (by decide)]
          simp only []
          rw [parseStrLoop_flat]
      | vNat n =>
          obtain ⟨c, t, hct, hd⟩ := natRepr_head n
          rw [show (dumpsV lvl (.vNat n)).data = (natRepr n).data from by
            simp [dumpsV]]
          rw [hct, List.cons_append]
          have hpn : parseNatJ (c :: (t ++ rest)) = some (n, rest) := by
            rw [← List.cons_append, ← hct]
            exact parseNatJ_repr n rest hrest
          simp only [parseValueJ]
          rw [skipWsJ_stop (isDig_not_ws hd)]
          split
          · rename_i heq
            exfalso
            rw [List.cons.injEq] at heq
            rw [heq.1] at hd
            cases hd
          · rename_i heq
            exfalso
            rw [List.cons.injEq] at heq
            rw [heq.1] at hd
            cases hd
          · rename_i c2 r2 heq
            rw [List.cons.injEq] at heq
            rw [← heq.1, ← heq.2]
            rw [if_pos hd, hpn]
          · rename_i heq
            exact (List.cons_ne_nil _ _ heq).elim
      | vNode d =>
          cases d with
          | nil =>
              rw [show (dumpsV lvl (.vNode [])).data ++ rest =
                  '\x7b' :: '\x7d' :: rest from by simp [dumpsV]]
              simp only [parseValueJ]
              rw [skipWsJ_stop (by decide)]
              simp only []
              rw [skipWsJ_stop (by decide)]
              rfl
          | cons m ms =>
              obtain ⟨k, v⟩ := m
              have hwf' : (keyMem k ms = false ∧ wfVal v = true) ∧
                  wfMembers ms = true := by
                simpa [wfVal, wfMembers] using hwf
              have hneed' : 1 + max (needV v) (needMt ms) ≤ f + 1 := by
                simpa [needV] using hneed
              rw [dumpsV_cons_data]
              simp only [parseValueJ]
              rw [skipWsJ_stop (by decide)]
              simp only []
              rw [skipWsJ_newline, skipWsJ_indent, skipWsJ_stop (by decide)]
              simp only []
              rw [parseStrLoop_flat]
              simp only []
              rw [skipWsJ_stop (by decide)]
              simp only []
              obtain ⟨cv, tv, hctv, hcwv⟩ := dumpsV_head_nonws v (lvl + 1)
              rw [show skipWsJ (' ' :: ((dumpsV (lvl + 1) v).data ++
                  ((dumpTail (lvl + 1) ms).data ++
                    '\n' :: ((indentStr lvl).data ++ '\x7d' :: rest)))) =
                  (dumpsV (lvl + 1) v).data ++
                    ((dumpTail (lvl + 1) ms).data ++
                      '\n' :: ((indentStr lvl).data ++ '\x7d' :: rest)) from by
                rw [skipWsJ_space, hctv, List.cons_append, skipWsJ_stop hcwv]]
              rw [ihF v (lvl + 1) _ hwf'.1.2 (by omega)
                (dumpTail_nondig ms (lvl + 1) _)]
              simp only []
              have hsetnil : dictSet [] (⟨k.data⟩ : String) v = [(k, v)] := rfl
              rw [hsetnil]
              rw [parseMoreMembers_dumps f
                (fun v' lvl' rest' hw hn hr => ihF v' lvl' rest' hw hn hr)
                ms lvl f [(k, v)] rest hwf'.2
                (fun p hp => by
                  have := needMt_value_le ms p hp
                  have := Nat.le_max_right (needV v) (needMt ms)
                  omega)
                (by
                  have := needMt_ge_len ms
                  have := Nat.le_max_right (needV v) (needMt ms)
                  omega)
                (fun p hp => by
                  simp only [keyMem, List.any_cons, List.any_nil,
                    Bool.or_false]
                  cases hkp : (k == p.1) with
                  | false => rfl
                  | true =>
                      exfalso
                      exact ((keyMem_false_iff k ms).mp hwf'.1.1 p hp)
                        (eq_of_beq hkp).symm)
                hrest]
              simp

/-- Serialization followed by parsing reproduces any well-formed mapping. -/
theorem jsonLoads_dumps (d : Dict) (hwf : wfMembers d = true) :
    jsonLoads (jsonDumps d) = some (.vNode d) := by
  unfold jsonLoads jsonDumps
  have h := parseValueJ_dumps ((dumpsV 0 (.vNode d)).data.length + 1)
    (.vNode d) 0 [] (by simpa [wfVal] using hwf)
    (needV_le_len 0 (.vNode d)) (by intro c hc; cases hc)
  rw [List.append_nil] at h
  rw [h]
  rfl

/-- C4: serializing any tree the builder returns with the JSON writer
(two-space indent, non-ASCII unescaped) and parsing the text back yields
exactly the original mapping — the same keys at every level and the same
metadata values. -/
theorem C4_json_roundtrip (f : Nat) (pathName : String) (p : RootPath)
    (d : Dict) (hscan : scan f pathName p = PyOutcome.ok d) :
    jsonLoads (jsonDumps d) = some (Value.vNode d) :=
  jsonLoads_dumps d (scan_inv f pathName p d hscan).2

/-- Witness for C4 at a concretely scanned one-file tree. -/
theorem C4_json_roundtrip_witness :
    jsonLoads (jsonDumps [("fol_b.txt",
      Value.vNode (metaNode "b.txt" "file" "b.txt" 5 "2024-05-06 07:08:09"))]) =
    some (Value.vNode [("fol_b.txt",
      Value.vNode (metaNode "b.txt" "file" "b.txt" 5 "2024-05-06 07:08:09"))]) :=
  C4_json_roundtrip 1 "r" ⟨true, true, [⟨["b.txt"], false, 5,
    "2024-05-06 07:08:09", []⟩]⟩
    [("fol_b.txt",
      Value.vNode (metaNode "b.txt" "file" "b.txt" 5 "2024-05-06 07:08:09"))]
    rfl
